import Mathlib

/-!
Verification of the core of a CPU path tracer (BVH acceleration structure,
HRPP ray-path predictor, tile renderer, shading kernel) against its
natural-language specification.

Scalars: the source uses machine floats; we embed them as exact rationals
(`ℚ`), with an explicit extended type `XQ` (±infinity, NaN) for the places
where the source's float arithmetic can produce infinities or NaNs (the
slab-method ray/AABB test divides by a direction component that may be zero).
Machine integers (`u16`/`u32`/`u64` in the fingerprint code) are embedded as
`ℕ` with explicit truncation where the source casts.

Geometric primitives and materials are out of scope of the specification
(interface contracts only), so scene objects are embedded abstractly: an
object is a finite set of candidate intersection parameters per ray together
with a bounding box, and its `hit` returns the nearest candidate inside the
queried interval, which is the specified `Hittable` contract.
-/

namespace RT

/-- A 3-component vector of exact scalars (embedding of `glam::DVec3`/`Vec3`). -/
structure Vec3q where
  x : ℚ
  y : ℚ
  z : ℚ
deriving DecidableEq, Repr

/-- A ray: origin and direction (embedding of `Ray`; the `time` coordinate is
not read by any code under verification, so it is omitted). -/
structure RayQ where
  origin : Vec3q
  direction : Vec3q
deriving DecidableEq, Repr

/-- `ray.at(t) = origin + t * direction` from `ray.rs`. -/
def RayQ.at (r : RayQ) (t : ℚ) : Vec3q :=
  ⟨r.origin.x + t * r.direction.x, r.origin.y + t * r.direction.y,
    r.origin.z + t * r.direction.z⟩

/-- Axis-aligned bounding box, `aabb.rs`: `{ min max : vec3 }`. -/
structure Aabb where
  min : Vec3q
  max : Vec3q
deriving DecidableEq, Repr

/-- The `(Some box0, Some box1)` branch of `Aabb::union`: component-wise
minimum of the two minima and maximum of the two maxima. -/
def unionBoxes (b0 b1 : Aabb) : Aabb :=
  ⟨⟨min b0.min.x b1.min.x, min b0.min.y b1.min.y, min b0.min.z b1.min.z⟩,
    ⟨max b0.max.x b1.max.x, max b0.max.y b1.max.y, max b0.max.z b1.max.z⟩⟩

/-- `Aabb::union` from `aabb.rs`: `none` if both absent, the non-absent one if
one is absent, otherwise component-wise `(min, max)` of both. -/
def Aabb.union (box0 box1 : Option Aabb) : Option Aabb :=
  match box0, box1 with
  | none, none => none
  | none, some b1 => some b1
  | some b0, none => some b0
  | some b0, some b1 => some (unionBoxes b0 b1)

/-- Component-wise box containment: `a` contains `b`. -/
def containsB (a b : Aabb) : Prop :=
  a.min.x ≤ b.min.x ∧ a.min.y ≤ b.min.y ∧ a.min.z ≤ b.min.z ∧
  b.max.x ≤ a.max.x ∧ b.max.y ≤ a.max.y ∧ b.max.z ≤ a.max.z

instance (a b : Aabb) : Decidable (containsB a b) := by
  unfold containsB; infer_instance

theorem containsB_refl (a : Aabb) : containsB a a := by
  simp [containsB]

theorem containsB_trans {a b c : Aabb} (h1 : containsB a b) (h2 : containsB b c) :
    containsB a c := by
  obtain ⟨a1, a2, a3, a4, a5, a6⟩ := h1
  obtain ⟨b1, b2, b3, b4, b5, b6⟩ := h2
  exact ⟨a1.trans b1, a2.trans b2, a3.trans b3, b4.trans a4, b5.trans a5, b6.trans a6⟩

theorem containsB_unionBoxes_left (a b : Aabb) : containsB (unionBoxes a b) a := by
  simp [containsB, unionBoxes]

theorem containsB_unionBoxes_right (a b : Aabb) : containsB (unionBoxes a b) b := by
  simp [containsB, unionBoxes]

theorem unionBoxes_self (a : Aabb) : unionBoxes a a = a := by
  simp [unionBoxes]

/-- C8: `Aabb::union` satisfies the spec's equations: `none` if both inputs
are absent, the non-absent one if one is absent, idempotent on equal inputs,
and component-wise `(min, max)` on two present boxes. -/
theorem aabb_union_spec :
    Aabb.union none none = none ∧
    (∀ a : Aabb, Aabb.union (some a) none = some a) ∧
    (∀ a : Aabb, Aabb.union none (some a) = some a) ∧
    (∀ a : Aabb, Aabb.union (some a) (some a) = some a) ∧
    (∀ a b : Aabb, Aabb.union (some a) (some b) =
      some ⟨⟨min a.min.x b.min.x, min a.min.y b.min.y, min a.min.z b.min.z⟩,
            ⟨max a.max.x b.max.x, max a.max.y b.max.y, max a.max.z b.max.z⟩⟩) := by
  refine ⟨rfl, fun a => rfl, fun a => rfl, fun a => ?_, fun a b => rfl⟩
  simp [Aabb.union, unionBoxes_self]

/-! ### Renderer tiling (`renderer.rs`, `Tile::tile`) -/

/-- A tile: a rectangular subregion of the image in pixel coordinates
(`renderer.rs`, `struct Tile`). -/
structure Tile where
  width : ℕ
  height : ℕ
  xStart : ℕ
  yStart : ℕ
deriving DecidableEq, Repr

/-- `Tile::tile(image_width, image_height, tile_width, tile_height)` from
`renderer.rs`: full rows of full tiles with an optional trailing thin tile,
then an optional bottom row, then an optional corner tile, in push order. -/
def Tile.tile (imageWidth imageHeight tileWidth tileHeight : ℕ) : List Tile :=
  let numHorizontalTiles := imageWidth / tileWidth
  let remainderHorizontalPixels := imageWidth % tileWidth
  let numVerticalTiles := imageHeight / tileHeight
  let remainderVerticalPixels := imageHeight % tileHeight
  ((List.range numVerticalTiles).flatMap (fun tileY =>
    (List.range numHorizontalTiles).map (fun tileX =>
      Tile.mk tileWidth tileHeight (tileX * tileWidth) (tileY * tileHeight))
    ++ (if 0 < remainderHorizontalPixels then
          [Tile.mk remainderHorizontalPixels tileHeight
            (numHorizontalTiles * tileWidth) (tileY * tileHeight)]
        else [])))
  ++ (if 0 < remainderVerticalPixels then
        (List.range numHorizontalTiles).map (fun tileX =>
          Tile.mk tileWidth remainderVerticalPixels
            (tileX * tileWidth) (numVerticalTiles * tileHeight))
      else [])
  ++ (if 0 < remainderHorizontalPixels ∧ 0 < remainderVerticalPixels then
        [Tile.mk remainderHorizontalPixels remainderVerticalPixels
          (numHorizontalTiles * tileWidth) (numVerticalTiles * tileHeight)]
      else [])

/-- Pixel membership: pixel `(x, y)` lies inside tile `t`. -/
def inTile (t : Tile) (x y : ℕ) : Bool :=
  decide (t.xStart ≤ x ∧ x < t.xStart + t.width ∧
          t.yStart ≤ y ∧ y < t.yStart + t.height)

/-- One band of tiles sharing `yStart`/`height`: the full-width columns plus
the optional remainder column (helper for reasoning about `Tile.tile`). -/
def colTiles (tw nx rx y0 hgt : ℕ) : List Tile :=
  (List.range nx).map (fun i => Tile.mk tw hgt (i * tw) y0)
  ++ (if 0 < rx then [Tile.mk rx hgt (nx * tw) y0] else [])

theorem tile_decomp (W H tw th : ℕ) :
    Tile.tile W H tw th =
      (List.range (H / th)).flatMap (fun j => colTiles tw (W / tw) (W % tw) (j * th) th)
      ++ (if 0 < H % th then colTiles tw (W / tw) (W % tw) ((H / th) * th) (H % th)
          else []) := by
  unfold Tile.tile colTiles
  rcases Nat.eq_zero_or_pos (W % tw) with hrx | hrx <;>
    rcases Nat.eq_zero_or_pos (H % th) with hry | hry <;>
      simp [hrx, hry, Nat.pos_iff_ne_zero, List.append_assoc]

theorem countP_cols (x tw : ℕ) (htw : 0 < tw) (n : ℕ) :
    (List.range n).countP (fun i => decide (i * tw ≤ x ∧ x < i * tw + tw)) =
      if x < n * tw then 1 else 0 := by
  induction n with
  | zero => simp
  | succ n ih =>
    rw [List.range_succ, List.countP_append, ih]
    rcases Nat.lt_or_ge x (n * tw) with h | h
    · have h2 : x < (n + 1) * tw := h.trans_le (by
        rw [Nat.add_mul]; omega)
      simp only [List.countP_cons, List.countP_nil]
      have : ¬ (n * tw ≤ x ∧ x < n * tw + tw) := by omega
      simp [h, h2, this]
    · have : (n * tw ≤ x ∧ x < n * tw + tw) ↔ x < (n + 1) * tw := by
        rw [Nat.add_mul]; omega
      simp only [List.countP_cons, List.countP_nil]
      by_cases h2 : x < (n + 1) * tw
      · have hnot : ¬ x < n * tw := by omega
        simp [hnot, h2, this.mpr h2]
      · have hnot : ¬ x < n * tw := by omega
        have : ¬ (n * tw ≤ x ∧ x < n * tw + tw) := by rw [this]; exact h2
        simp [hnot, h2, this]

theorem countP_colTiles (x y tw nx rx y0 hgt : ℕ) (htw : 0 < tw)
    (hx : x < nx * tw + rx) :
    (colTiles tw nx rx y0 hgt).countP (fun t => inTile t x y) =
      if y0 ≤ y ∧ y < y0 + hgt then 1 else 0 := by
  unfold colTiles
  rw [List.countP_append, List.countP_map]
  by_cases hy : y0 ≤ y ∧ y < y0 + hgt
  · have hmap : ((fun t => inTile t x y) ∘ fun i => Tile.mk tw hgt (i * tw) y0) =
        fun i => decide (i * tw ≤ x ∧ x < i * tw + tw) := by
      funext i
      simp [inTile, Function.comp, hy.1, hy.2, and_assoc]
    rw [hmap, countP_cols x tw htw nx]
    rcases Nat.lt_or_ge x (nx * tw) with h | h
    · have : ∀ l : List Tile,
          (if 0 < rx then [Tile.mk rx hgt (nx * tw) y0] else []).countP
            (fun t => inTile t x y) = 0 := by
        intro _
        rcases Nat.eq_zero_or_pos rx with h0 | h0
        · simp [h0]
        · have : ¬ (nx * tw ≤ x) := by omega
          simp [h0, inTile, this]
      simp [h, this [], hy.1, hy.2]
    · have h0 : 0 < rx := by omega
      have : inTile (Tile.mk rx hgt (nx * tw) y0) x y = true := by
        simp [inTile, h, hy.1, hy.2]; omega
      simp [h0, this, Nat.not_lt.mpr h, hy.1, hy.2]
  · have hmap : ∀ i, ((fun t => inTile t x y) ∘ fun i => Tile.mk tw hgt (i * tw) y0) i
        = false := by
      intro i
      simp only [Function.comp, inTile, decide_eq_false_iff_not]
      intro hcon
      exact hy ⟨hcon.2.2.1, hcon.2.2.2⟩
    have h1 : (List.range nx).countP
        ((fun t => inTile t x y) ∘ fun i => Tile.mk tw hgt (i * tw) y0) = 0 := by
      rw [List.countP_eq_zero]
      intro a _
      have := hmap a
      simp only [Function.comp] at this
      simp [this]
    have h2 : (if 0 < rx then [Tile.mk rx hgt (nx * tw) y0] else []).countP
        (fun t => inTile t x y) = 0 := by
      rcases Nat.eq_zero_or_pos rx with h0 | h0
      · simp [h0]
      · have : inTile (Tile.mk rx hgt (nx * tw) y0) x y = false := by
          simp only [inTile, decide_eq_false_iff_not]
          intro hcon
          exact hy ⟨hcon.2.2.1, hcon.2.2.2⟩
        simp [h0, this]
    rw [h1, h2]
    simp [hy]

theorem countP_rows (x y tw th nx rx : ℕ) (htw : 0 < tw) (hth : 0 < th)
    (hx : x < nx * tw + rx) (n : ℕ) :
    ((List.range n).flatMap (fun j => colTiles tw nx rx (j * th) th)).countP
        (fun t => inTile t x y) =
      if y < n * th then 1 else 0 := by
  induction n with
  | zero => simp
  | succ n ih =>
    rw [List.range_succ, List.flatMap_append, List.countP_append, ih]
    simp only [List.flatMap_cons, List.flatMap_nil, List.append_nil]
    have hband : (colTiles tw nx rx (n * th) th).countP (fun t => inTile t x y) =
        if n * th ≤ y ∧ y < n * th + th then 1 else 0 :=
      countP_colTiles x y tw nx rx (n * th) th htw hx
    rw [hband]
    have hsucc : (n + 1) * th = n * th + th := by rw [Nat.add_mul]; omega
    rcases Nat.lt_or_ge y (n * th) with h | h
    · have hne : ¬ (n * th ≤ y ∧ y < n * th + th) := by omega
      have h3 : y < n * th + th := by omega
      simp [h, hne, hsucc, h3]
    · by_cases h2 : y < (n + 1) * th
      · have : n * th ≤ y ∧ y < n * th + th := by omega
        simp [Nat.not_lt.mpr h, this, h2]
      · have : ¬ (n * th ≤ y ∧ y < n * th + th) := by omega
        simp [Nat.not_lt.mpr h, this, h2]

theorem area_colTiles (tw nx rx y0 hgt : ℕ) :
    ((colTiles tw nx rx y0 hgt).map (fun t => t.width * t.height)).sum =
      (nx * tw + rx) * hgt := by
  unfold colTiles
  rw [List.map_append, List.sum_append, List.map_map]
  have h1 : ((List.range nx).map
      ((fun t : Tile => t.width * t.height) ∘ fun i => Tile.mk tw hgt (i * tw) y0)).sum
      = nx * (tw * hgt) := by
    induction nx with
    | zero => simp
    | succ n ih => rw [List.range_succ, List.map_append, List.sum_append, ih]; simp; ring
  rw [h1]
  rcases Nat.eq_zero_or_pos rx with h0 | h0
  · simp [h0]; ring
  · simp [h0]; ring

theorem mem_colTiles {t : Tile} {tw nx rx y0 hgt : ℕ} (h : t ∈ colTiles tw nx rx y0 hgt) :
    t.yStart = y0 ∧ t.height = hgt ∧ t.xStart + t.width ≤ nx * tw + rx ∧
      ((t.width = tw ∧ ∃ i < nx, t.xStart = i * tw) ∨
        (0 < rx ∧ t.width = rx ∧ t.xStart = nx * tw)) := by
  unfold colTiles at h
  rw [List.mem_append] at h
  rcases h with h | h
  · rw [List.mem_map] at h
    obtain ⟨i, hi, rfl⟩ := h
    rw [List.mem_range] at hi
    refine ⟨rfl, rfl, ?_, Or.inl ⟨rfl, i, hi, rfl⟩⟩
    have : (i + 1) * tw ≤ nx * tw := Nat.mul_le_mul_right tw hi
    simp only []
    calc i * tw + tw = (i + 1) * tw := by ring
    _ ≤ nx * tw := this
    _ ≤ nx * tw + rx := Nat.le_add_right _ _
  · rcases Nat.eq_zero_or_pos rx with h0 | h0
    · simp [h0] at h
    · simp [h0] at h
      subst h
      exact ⟨rfl, rfl, le_refl _, Or.inr ⟨h0, rfl, rfl⟩⟩

/-- The conjunction verified about `Tile::tile` (the amended C5): with positive
tile dimensions, every image pixel is covered by exactly one tile, tiles stay
inside the image, tile areas sum to `W·H`, every tile's dimensions are one of
the four expected shapes, and the remainder tiles exist whenever the
corresponding full row/column counts are nonzero (the corner tile whenever
both remainders are nonzero). -/
def TilePartitionOk (W H tw th : ℕ) : Prop :=
  (∀ x y, x < W → y < H →
    (Tile.tile W H tw th).countP (fun t => inTile t x y) = 1) ∧
  (∀ t ∈ Tile.tile W H tw th, t.xStart + t.width ≤ W ∧ t.yStart + t.height ≤ H) ∧
  ((Tile.tile W H tw th).map (fun t => t.width * t.height)).sum = W * H ∧
  (∀ t ∈ Tile.tile W H tw th,
    (t.width = tw ∧ t.height = th) ∨ (t.width = W % tw ∧ t.height = th) ∨
    (t.width = tw ∧ t.height = H % th) ∨ (t.width = W % tw ∧ t.height = H % th)) ∧
  (0 < W % tw → 0 < H / th →
    ∃ t ∈ Tile.tile W H tw th, t.width = W % tw ∧ t.height = th) ∧
  (0 < H % th → 0 < W / tw →
    ∃ t ∈ Tile.tile W H tw th, t.width = tw ∧ t.height = H % th) ∧
  (0 < W % tw → 0 < H % th →
    ∃ t ∈ Tile.tile W H tw th, t.width = W % tw ∧ t.height = H % th ∧
      t.xStart = (W / tw) * tw ∧ t.yStart = (H / th) * th)

/-- C5 (amended): for positive tile dimensions, `Tile::tile(W, H, tw, th)`
returns pairwise-disjoint rectangles covering the `W×H` image exactly once
(each image pixel lies in exactly one listed tile and every listed tile lies
inside the image), the tile areas sum to `W·H`, and every tile has dimensions
`(tw,th)`, `(W%tw,th)`, `(tw,H%th)` or `(W%tw,H%th)`; the remainder tiles of
dimensions `(W%tw,th)` and `(tw,H%th)` exist whenever additionally at least
one full row (resp. column) of tiles exists (`H/th > 0`, resp. `W/tw > 0`),
and the corner tile `(W%tw,H%th)` exists whenever both remainders are
nonzero. (The unamended claim asserts the remainder tiles exist whenever the
remainders are nonzero, which fails when the image is narrower or shorter
than one tile; see the counterexample.) -/
theorem c5_tile_partition (W H tw th : ℕ) (htw : 0 < tw) (hth : 0 < th) :
    TilePartitionOk W H tw th := by
  have hW2 : (W / tw) * tw + W % tw = W := by
    rw [Nat.mul_comm]; exact Nat.div_add_mod W tw
  have hH2 : (H / th) * th + H % th = H := by
    rw [Nat.mul_comm]; exact Nat.div_add_mod H th
  refine ⟨?_, ?_, ?_, ?_, ?_, ?_, ?_⟩
  · -- every image pixel is covered by exactly one tile
    intro x y hx hy
    have hx2 : x < (W / tw) * tw + W % tw := by omega
    rw [tile_decomp, List.countP_append,
      countP_rows x y tw th (W / tw) (W % tw) htw hth hx2 (H / th)]
    rcases Nat.eq_zero_or_pos (H % th) with h0 | h0
    · have hy2 : y < (H / th) * th := by omega
      simp [h0, hy2]
    · rw [if_pos h0, countP_colTiles x y tw (W / tw) (W % tw) ((H / th) * th)
        (H % th) htw hx2]
      by_cases hy2 : y < (H / th) * th
      · have : ¬ ((H / th) * th ≤ y ∧ y < (H / th) * th + H % th) := by omega
        simp [hy2, this]
      · have : (H / th) * th ≤ y ∧ y < (H / th) * th + H % th := by omega
        simp [hy2, this]
  · -- tiles stay inside the image rectangle
    intro t ht
    rw [tile_decomp, List.mem_append] at ht
    rcases ht with ht | ht
    · rw [List.mem_flatMap] at ht
      obtain ⟨j, hj, hmem⟩ := ht
      rw [List.mem_range] at hj
      obtain ⟨hy0, hhgt, hxb, _⟩ := mem_colTiles hmem
      constructor
      · omega
      · rw [hy0, hhgt]
        have : (j + 1) * th ≤ (H / th) * th := Nat.mul_le_mul_right th hj
        have h2 : j * th + th = (j + 1) * th := by ring
        omega
    · rcases Nat.eq_zero_or_pos (H % th) with h0 | h0
      · simp [h0] at ht
      · rw [if_pos h0] at ht
        obtain ⟨hy0, hhgt, hxb, _⟩ := mem_colTiles ht
        exact ⟨by omega, by omega⟩
  · -- tile areas sum to W·H
    rw [tile_decomp, List.map_append, List.sum_append]
    have hrows : ∀ n : ℕ,
        (((List.range n).flatMap
            (fun j => colTiles tw (W / tw) (W % tw) (j * th) th)).map
          (fun t => t.width * t.height)).sum = n * (((W / tw) * tw + W % tw) * th) := by
      intro n
      induction n with
      | zero => simp
      | succ n ih =>
        rw [List.range_succ, List.flatMap_append, List.map_append, List.sum_append, ih]
        simp only [List.flatMap_cons, List.flatMap_nil, List.append_nil]
        rw [area_colTiles]
        ring
    rw [hrows]
    have hbot : ((if 0 < H % th then
          colTiles tw (W / tw) (W % tw) ((H / th) * th) (H % th) else []).map
        (fun t => t.width * t.height)).sum = ((W / tw) * tw + W % tw) * (H % th) := by
      rcases Nat.eq_zero_or_pos (H % th) with h0 | h0
      · simp [h0]
      · rw [if_pos h0, area_colTiles]
    rw [hbot, hW2]
    conv_rhs => rw [← hH2]
    ring
  · -- every tile has one of the four expected dimension pairs
    intro t ht
    rw [tile_decomp, List.mem_append] at ht
    rcases ht with ht | ht
    · rw [List.mem_flatMap] at ht
      obtain ⟨j, _, hmem⟩ := ht
      obtain ⟨_, hhgt, _, hwid⟩ := mem_colTiles hmem
      rcases hwid with ⟨hw, _⟩ | ⟨_, hw, _⟩
      · exact Or.inl ⟨hw, hhgt⟩
      · exact Or.inr (Or.inl ⟨hw, hhgt⟩)
    · rcases Nat.eq_zero_or_pos (H % th) with h0 | h0
      · simp [h0] at ht
      · rw [if_pos h0] at ht
        obtain ⟨_, hhgt, _, hwid⟩ := mem_colTiles ht
        rcases hwid with ⟨hw, _⟩ | ⟨_, hw, _⟩
        · exact Or.inr (Or.inr (Or.inl ⟨hw, hhgt⟩))
        · exact Or.inr (Or.inr (Or.inr ⟨hw, hhgt⟩))
  · -- the trailing thin column exists when W % tw ≠ 0 and there is a full row
    intro hrx hny
    refine ⟨Tile.mk (W % tw) th ((W / tw) * tw) (0 * th), ?_, rfl, rfl⟩
    rw [tile_decomp]
    apply List.mem_append_left
    rw [List.mem_flatMap]
    refine ⟨0, by simpa using hny, ?_⟩
    unfold colTiles
    apply List.mem_append_right
    simp [hrx]
  · -- the bottom thin row exists when H % th ≠ 0 and there is a full column
    intro hry hnx
    refine ⟨Tile.mk tw (H % th) (0 * tw) ((H / th) * th), ?_, rfl, rfl⟩
    rw [tile_decomp]
    apply List.mem_append_right
    rw [if_pos hry]
    unfold colTiles
    apply List.mem_append_left
    rw [List.mem_map]
    exact ⟨0, by simpa using hnx, rfl⟩
  · -- the corner tile exists when both remainders are nonzero
    intro hrx hry
    refine ⟨Tile.mk (W % tw) (H % th) ((W / tw) * tw) ((H / th) * th), ?_, rfl, rfl, rfl, rfl⟩
    rw [tile_decomp]
    apply List.mem_append_right
    rw [if_pos hry]
    unfold colTiles
    apply List.mem_append_right
    simp [hrx]

/-- C5 (counterexample to the claim as stated): for `W = H = 5`, `tw = th = 10`
(positive dimensions with `W % tw = 5 ≠ 0`), `Tile::tile` emits no tile of
dimensions `(W % tw, th) = (5, 10)` — the row loop runs zero times because
`H < th` — so the asserted remainder tile does not exist. (The only tile
produced is the `(5, 5)` corner tile.) -/
theorem c5_tile_partition_counterexample :
    (5 : ℕ) % 10 ≠ 0 ∧ (5 : ℕ) % 10 ≠ 0 ∧
      ∀ t ∈ Tile.tile 5 5 10 10, ¬ (t.width = 5 % 10 ∧ t.height = 10) := by
  decide

/-- Witness instantiating `c5_tile_partition` at the spec's imperfect-tiling
scenario (`310×31` image, `100×10` tiles). -/
theorem c5_tile_partition_witness :
    (0 : ℕ) < 100 ∧ (0 : ℕ) < 10 ∧ TilePartitionOk 310 31 100 10 :=
  ⟨by decide, by decide, c5_tile_partition 310 31 100 10 (by decide) (by decide)⟩

/-! ### HRPP ray fingerprint (`hrpp.rs`) -/

/-- `BitPrecision` from `hrpp.rs`: how many bits are kept of the exponent and
of the mantissa. -/
inductive BitPrecision where
  | one | two | three | four | five | six | seven
deriving DecidableEq, Repr

/-- The per-precision shift applied to reach the high exponent bits
(the first `match` table in `map_float_to_hash`). -/
def exponentBitsToShift : BitPrecision → ℕ
  | .one => 30 | .two => 29 | .three => 28 | .four => 27
  | .five => 26 | .six => 25 | .seven => 24

/-- The per-precision mask (the second `match` table in `map_float_to_hash`). -/
def bitsToMask : BitPrecision → ℕ
  | .one => 0x1 | .two => 0x3 | .three => 0x7 | .four => 0xf
  | .five => 0x1f | .six => 0x3f | .seven => 0x7f

/-- The per-precision shift applied to reach the high mantissa bits
(the third `match` table in `map_float_to_hash`). -/
def mantissaBitsToShift : BitPrecision → ℕ
  | .one => 22 | .two => 21 | .three => 20 | .four => 19
  | .five => 18 | .six => 17 | .seven => 16

/-- The `as u16` cast: truncation to 16 bits. -/
def toU16 (n : ℕ) : ℕ := n % 65536

/-- `map_float_to_hash(val, bit_precision)` from `hrpp.rs`, acting on the
float's 32-bit pattern `bits = val.to_bits()`:
`(sign_bit << 15) | (exponent_bits << 7) | mantissa_bits`. -/
def map_float_to_hash (bits : ℕ) (p : BitPrecision) : ℕ :=
  let sign_bit := toU16 (bits >>> 31) &&& 0x1
  let exponent_bits := toU16 (bits >>> exponentBitsToShift p) &&& bitsToMask p
  let mantissa_bits := toU16 (bits >>> mantissaBitsToShift p) &&& bitsToMask p
  (sign_bit <<< 15) ||| (exponent_bits <<< 7) ||| mantissa_bits

/-- The six `f32` bit patterns of a ray (origin xyz, direction xyz), each a
32-bit unsigned pattern as produced by `to_bits`. -/
structure RayBits where
  ox : ℕ
  oy : ℕ
  oz : ℕ
  dx : ℕ
  dy : ℕ
  dz : ℕ
deriving DecidableEq, Repr

/-- `hash(ray)` from `hrpp.rs` with the fixed `BitPrecision::Six`:
XOR-pair the six 16-bit sub-hashes and pack them into a 64-bit value. -/
def hrppHash (r : RayBits) : ℕ :=
  let precision := BitPrecision.six
  let hash_origin_x := map_float_to_hash r.ox precision
  let hash_origin_y := map_float_to_hash r.oy precision
  let hash_origin_z := map_float_to_hash r.oz precision
  let hash_direction_x := map_float_to_hash r.dx precision
  let hash_direction_y := map_float_to_hash r.dy precision
  let hash_direction_z := map_float_to_hash r.dz precision
  let hash_0 := hash_origin_x ^^^ hash_direction_z
  let hash_1 := hash_origin_y ^^^ hash_direction_y
  let hash_2 := hash_origin_z ^^^ hash_direction_x
  (hash_0 <<< 0) ||| (hash_1 <<< 16) ||| (hash_2 <<< 32)

/-- The fingerprint exactly as the claim spells it: per component, with
`P = 6`, the 16-bit sub-hash is
`sign_bit << 15 | ((bits >> 25) & 0x3f) << 7 | ((bits >> 17) & 0x3f)`,
then `h0 = sub(origin.x) XOR sub(direction.z)`,
`h1 = sub(origin.y) XOR sub(direction.y)`,
`h2 = sub(origin.z) XOR sub(direction.x)`, packed as
`(h0 << 0) | (h1 << 16) | (h2 << 32)`. -/
def fingerprintSpec (r : RayBits) : ℕ :=
  let sub : ℕ → ℕ := fun bits =>
    (((bits >>> 31) &&& 0x1) <<< 15) ||| (((bits >>> 25) &&& 0x3f) <<< 7) |||
      ((bits >>> 17) &&& 0x3f)
  let h0 := sub r.ox ^^^ sub r.dz
  let h1 := sub r.oy ^^^ sub r.dy
  let h2 := sub r.oz ^^^ sub r.dx
  (h0 <<< 0) ||| (h1 <<< 16) ||| (h2 <<< 32)

theorem toU16_and_of_lt (x m : ℕ) (hm : m < 65536) : toU16 x &&& m = x &&& m := by
  apply Nat.eq_of_testBit_eq
  intro i
  rw [Nat.testBit_and, Nat.testBit_and]
  show ((x % 65536).testBit i && m.testBit i) = (x.testBit i && m.testBit i)
  rw [show (65536 : ℕ) = 2 ^ 16 by norm_num, Nat.testBit_mod_two_pow]
  rcases Nat.lt_or_ge i 16 with h | h
  · simp [h]
  · have hbit : m.testBit i = false := by
      apply Nat.testBit_lt_two_pow
      calc m < 65536 := hm
      _ = 2 ^ 16 := by norm_num
      _ ≤ 2 ^ i := Nat.pow_le_pow_right (by norm_num) h
    simp [hbit]

theorem map_float_to_hash_lt (bits : ℕ) (p : BitPrecision) :
    map_float_to_hash bits p < 2 ^ 16 := by
  unfold map_float_to_hash
  apply Nat.or_lt_two_pow
  apply Nat.or_lt_two_pow
  · have h1 : toU16 (bits >>> 31) &&& 0x1 < 2 ^ 1 :=
      Nat.and_lt_two_pow _ (by norm_num)
    calc (toU16 (bits >>> 31) &&& 0x1) <<< 15 = (toU16 (bits >>> 31) &&& 0x1) * 2 ^ 15 :=
      Nat.shiftLeft_eq _ _
    _ < 2 ^ 1 * 2 ^ 15 := mul_lt_mul_of_pos_right h1 (by norm_num)
    _ ≤ 2 ^ 16 := by norm_num
  · have h1 : toU16 (bits >>> exponentBitsToShift p) &&& bitsToMask p < 2 ^ 7 := by
      apply Nat.and_lt_two_pow
      cases p <;> simp [bitsToMask]
    calc (toU16 (bits >>> exponentBitsToShift p) &&& bitsToMask p) <<< 7
        = (toU16 (bits >>> exponentBitsToShift p) &&& bitsToMask p) * 2 ^ 7 :=
      Nat.shiftLeft_eq _ _
    _ < 2 ^ 7 * 2 ^ 7 := mul_lt_mul_of_pos_right h1 (by norm_num)
    _ ≤ 2 ^ 16 := by norm_num
  · have h1 : toU16 (bits >>> mantissaBitsToShift p) &&& bitsToMask p < 2 ^ 7 := by
      apply Nat.and_lt_two_pow
      cases p <;> simp [bitsToMask]
    exact lt_of_lt_of_le h1 (by norm_num)

theorem map_float_to_hash_six (b : ℕ) :
    map_float_to_hash b BitPrecision.six =
      (((b >>> 31) &&& 0x1) <<< 15) ||| (((b >>> 25) &&& 0x3f) <<< 7) |||
        ((b >>> 17) &&& 0x3f) := by
  unfold map_float_to_hash
  simp only [exponentBitsToShift, bitsToMask, mantissaBitsToShift]
  rw [toU16_and_of_lt _ 0x1 (by norm_num), toU16_and_of_lt _ 0x3f (by norm_num),
    toU16_and_of_lt _ 0x3f (by norm_num)]

/-- C3: for every ray, the 64-bit fingerprint computed by `hash` in `hrpp.rs`
equals the claim's closed form (per component the `P = 6` sub-hash
`sign << 15 | ((bits >> 25) & 0x3f) << 7 | ((bits >> 17) & 0x3f)`, XOR-paired
as `h0 = origin.x ^ direction.z`, `h1 = origin.y ^ direction.y`,
`h2 = origin.z ^ direction.x`, packed `h0 | h1 << 16 | h2 << 32`), and only
its low 48 bits can be nonzero. -/
theorem c3_fingerprint (r : RayBits) (_hox : r.ox < 2 ^ 32) (_hoy : r.oy < 2 ^ 32)
    (_hoz : r.oz < 2 ^ 32) (_hdx : r.dx < 2 ^ 32) (_hdy : r.dy < 2 ^ 32)
    (_hdz : r.dz < 2 ^ 32) :
    hrppHash r = fingerprintSpec r ∧ hrppHash r < 2 ^ 48 := by
  constructor
  · unfold hrppHash fingerprintSpec
    simp only [map_float_to_hash_six]
  · have h16 : ∀ b, map_float_to_hash b BitPrecision.six < 2 ^ 16 := fun b =>
      map_float_to_hash_lt b BitPrecision.six
    unfold hrppHash
    simp only []
    have hx0 : map_float_to_hash r.ox BitPrecision.six ^^^
        map_float_to_hash r.dz BitPrecision.six < 2 ^ 16 :=
      Nat.xor_lt_two_pow (h16 _) (h16 _)
    have hx1 : map_float_to_hash r.oy BitPrecision.six ^^^
        map_float_to_hash r.dy BitPrecision.six < 2 ^ 16 :=
      Nat.xor_lt_two_pow (h16 _) (h16 _)
    have hx2 : map_float_to_hash r.oz BitPrecision.six ^^^
        map_float_to_hash r.dx BitPrecision.six < 2 ^ 16 :=
      Nat.xor_lt_two_pow (h16 _) (h16 _)
    apply Nat.or_lt_two_pow
    apply Nat.or_lt_two_pow
    · rw [Nat.shiftLeft_eq]
      calc _ * 2 ^ 0 = _ := Nat.mul_one _
      _ < 2 ^ 16 := hx0
      _ ≤ 2 ^ 48 := by norm_num
    · rw [Nat.shiftLeft_eq]
      calc _ * 2 ^ 16 < 2 ^ 16 * 2 ^ 16 := mul_lt_mul_of_pos_right hx1 (by norm_num)
      _ ≤ 2 ^ 48 := by norm_num
    · rw [Nat.shiftLeft_eq]
      calc _ * 2 ^ 32 < 2 ^ 16 * 2 ^ 32 := mul_lt_mul_of_pos_right hx2 (by norm_num)
      _ = 2 ^ 48 := by norm_num

/-- Witness instantiating `c3_fingerprint` at the bit patterns of a concrete
ray: origin `(1.0, 2.0, -0.5)`, direction `(0.0, 1.5, -1.0)` as `f32`. -/
theorem c3_fingerprint_witness :
    (0x3f800000 : ℕ) < 2 ^ 32 ∧
      hrppHash ⟨0x3f800000, 0x40000000, 0xbf000000, 0x0, 0x3fc00000, 0xbf800000⟩ =
        fingerprintSpec ⟨0x3f800000, 0x40000000, 0xbf000000, 0x0, 0x3fc00000, 0xbf800000⟩ ∧
      hrppHash ⟨0x3f800000, 0x40000000, 0xbf000000, 0x0, 0x3fc00000, 0xbf800000⟩ < 2 ^ 48 :=
  ⟨by norm_num,
    c3_fingerprint ⟨0x3f800000, 0x40000000, 0xbf000000, 0x0, 0x3fc00000, 0xbf800000⟩
      (by norm_num) (by norm_num) (by norm_num) (by norm_num) (by norm_num) (by norm_num)⟩

/-! ### PPM output (`renderer.rs`, `Renderer::write_ppm`) -/

/-- Embedding of the `palette` crate's `f32 → u8` channel conversion used by
`Srgb::into_raw(color.into_format())`: scale by `u8::MAX = 255`, round
(half away from zero; for non-negative inputs this agrees with `round`), and
saturate into `0..=255` (the behavior of Rust's float-to-integer `as` cast). -/
def channelToU8 (c : ℚ) : ℕ := Int.toNat (min 255 (max 0 (round (c * 255))))

/-- The claim's per-channel formula, modelled from the spec: clamp the value
to `[0, 0.999]` and take `floor(c·256)`. -/
def floorChannel (c : ℚ) : ℕ := Int.toNat ⌊(max 0 (min c (999 / 1000))) * 256⌋

/-- The framebuffer (`ImageColors` from `renderer.rs`): a row-major flat list
of linear-RGB triples plus the image width. -/
structure ImageColors where
  imageWidth : ℕ
  colors : List (ℚ × ℚ × ℚ)

/-- `ImageColors::get_color(x, y) = colors[y * image_width + x]`. -/
def ImageColors.getColor (ic : ImageColors) (x y : ℕ) : ℚ × ℚ × ℚ :=
  ic.colors.getD (y * ic.imageWidth + x) (0, 0, 0)

/-- One emitted pixel line `"{r} {g} {b}"` of the PPM body. -/
def pixelLine (c : ℚ × ℚ × ℚ) : String :=
  toString (channelToU8 c.1) ++ " " ++ toString (channelToU8 c.2.1) ++ " " ++
    toString (channelToU8 c.2.2)

/-- `Renderer::write_ppm` from `renderer.rs` as the list of emitted lines:
the header `P3`, `"{W} {H}"`, `255`, then for `y` in `(0..H).rev()` and `x`
in `0..W` one line per pixel. -/
def write_ppm (W H : ℕ) (colors : ImageColors) : List String :=
  ["P3", toString W ++ " " ++ toString H, "255"]
  ++ (List.range H).reverse.flatMap (fun y =>
      (List.range W).map (fun x => pixelLine (colors.getColor x y)))

theorem flatMap_const_length_getD {α β : Type} (f : α → List β) (W : ℕ)
    (hf : ∀ a, (f a).length = W) (d : β) (e : α) :
    ∀ (l : List α), (l.flatMap f).length = l.length * W ∧
      ∀ i x, i < l.length → x < W →
        (l.flatMap f).getD (i * W + x) d = (f (l.getD i e)).getD x d := by
  intro l
  induction l with
  | nil => exact ⟨by simp, by intro i x hi _; simp at hi⟩
  | cons a l ih =>
    constructor
    · rw [List.flatMap_cons, List.length_append, hf a, ih.1, List.length_cons]
      ring
    · intro i x hi hx
      rw [List.flatMap_cons]
      cases i with
      | zero =>
        simp only [Nat.zero_mul, Nat.zero_add, List.getD_cons_zero]
        exact List.getD_append _ _ d x (by rw [hf a]; omega)
      | succ i =>
        have hfa := hf a
        have hi2 : i < l.length := by simpa using hi
        rw [List.getD_append_right _ _ d _ (by
          rw [hfa]
          calc W = 1 * W := (Nat.one_mul W).symm
          _ ≤ (i + 1) * W := Nat.mul_le_mul_right W (by omega)
          _ ≤ (i + 1) * W + x := Nat.le_add_right _ _)]
        have hidx : (i + 1) * W + x - (f a).length = i * W + x := by
          rw [hfa, Nat.add_mul]
          omega
        rw [hidx, List.getD_cons_succ]
        exact ih.2 i x hi2 hx

/-- C9 (amended): the emitted PPM is the header `P3`, `"{W} {H}"`, `255`,
followed by `W·H` pixel lines emitted bottom-to-top by `y` (the line at
offset `3 + (H-1-y)·W + x` is pixel `(x, y)`, so the first emitted row is
`y = H-1`), where each channel is the framebuffer component converted to
`u8` by the `palette` conversion `round(c·255)` saturated into `0..=255`
(`channelToU8`) — not by the claimed `floor(c·256)` after clamping to
`[0, 0.999]`; see the counterexample. -/
theorem c9_ppm_format (W H : ℕ) (colors : ImageColors) :
    (write_ppm W H colors).length = 3 + H * W ∧
    (write_ppm W H colors).getD 0 "" = "P3" ∧
    (write_ppm W H colors).getD 1 "" = toString W ++ " " ++ toString H ∧
    (write_ppm W H colors).getD 2 "" = "255" ∧
    ∀ x y, x < W → y < H →
      (write_ppm W H colors).getD (3 + (H - 1 - y) * W + x) "" =
        pixelLine (colors.getColor x y) := by
  have hF : ∀ y : ℕ, ((List.range W).map
      (fun x => pixelLine (colors.getColor x y))).length = W := by
    intro y
    rw [List.length_map, List.length_range]
  have hb := flatMap_const_length_getD
    (fun y => (List.range W).map (fun x => pixelLine (colors.getColor x y))) W hF ""
    0 (List.range H).reverse
  refine ⟨?_, rfl, rfl, rfl, ?_⟩
  · unfold write_ppm
    rw [List.length_append, hb.1, List.length_reverse, List.length_range]
    rfl
  · intro x y hx hy
    unfold write_ppm
    rw [List.getD_append_right _ _ "" _ (by
      simp only [List.length_cons, List.length_nil]
      omega)]
    have hidx : 3 + (H - 1 - y) * W + x - (["P3", toString W ++ " " ++ toString H,
        "255"] : List String).length = (H - 1 - y) * W + x := by
      simp only [List.length_cons, List.length_nil]
      omega
    rw [hidx]
    have hi : H - 1 - y < (List.range H).reverse.length := by
      rw [List.length_reverse, List.length_range]
      omega
    rw [hb.2 (H - 1 - y) x (by simpa using hi) hx]
    have hrev : (List.range H).reverse.getD (H - 1 - y) 0 = y := by
      rw [List.getD_eq_getElem _ 0 hi, List.getElem_reverse]
      rw [List.getElem_range]
      rw [List.length_range]
      omega
    rw [hrev]
    rw [List.getD_eq_getElem _ "" (by rw [List.length_map, List.length_range]; omega)]
    rw [List.getElem_map, List.getElem_range]

/-- C9 (counterexample to the claim as stated): on a `1×1` framebuffer whose
single channel value is `0.95`, the emitted pixel line carries
`channelToU8 0.95 = round(0.95·255) = 242`, while the claim's formula gives
`floor(clamp(0.95)·256) = floor(243.2) = 243`. -/
theorem c9_ppm_counterexample :
    (write_ppm 1 1 ⟨1, [((19 : ℚ)/20, (19 : ℚ)/20, (19 : ℚ)/20)]⟩).getD 3 "" =
      pixelLine ((19 : ℚ)/20, (19 : ℚ)/20, (19 : ℚ)/20) ∧
    channelToU8 ((19 : ℚ)/20) = 242 ∧
    floorChannel ((19 : ℚ)/20) = 243 ∧ (242 : ℕ) ≠ 243 := by
  refine ⟨?_, ?_, ?_, by omega⟩
  · show (["P3", toString 1 ++ " " ++ toString 1, "255"]
      ++ (List.range 1).reverse.flatMap (fun y => (List.range 1).map
        (fun x => pixelLine ((ImageColors.mk 1
          [((19 : ℚ)/20, (19 : ℚ)/20, (19 : ℚ)/20)]).getColor x y)))).getD 3 "" = _
    simp [List.range, List.range.loop, ImageColors.getColor]
  · show Int.toNat (min 255 (max 0 (round ((19 : ℚ)/20 * 255)))) = 242
    norm_num [round_eq]
    simp
  · show Int.toNat ⌊(max 0 (min ((19 : ℚ)/20) (999 / 1000))) * 256⌋ = 243
    norm_num
    simp

/-- Witness instantiating `c9_ppm_format` on a concrete `1×1` framebuffer. -/
theorem c9_ppm_format_witness :
    (write_ppm 1 1 ⟨1, [((1 : ℚ)/2, 0, 1)]⟩).length = 3 + 1 * 1 ∧
    (write_ppm 1 1 ⟨1, [((1 : ℚ)/2, 0, 1)]⟩).getD 0 "" = "P3" ∧
    (write_ppm 1 1 ⟨1, [((1 : ℚ)/2, 0, 1)]⟩).getD 1 "" =
      toString 1 ++ " " ++ toString 1 ∧
    (write_ppm 1 1 ⟨1, [((1 : ℚ)/2, 0, 1)]⟩).getD 2 "" = "255" ∧
    ∀ x y, x < 1 → y < 1 →
      (write_ppm 1 1 ⟨1, [((1 : ℚ)/2, 0, 1)]⟩).getD (3 + (1 - 1 - y) * 1 + x) "" =
        pixelLine ((ImageColors.mk 1 [((1 : ℚ)/2, 0, 1)]).getColor x y) :=
  c9_ppm_format 1 1 ⟨1, [((1 : ℚ)/2, 0, 1)]⟩

/-! ### Extended scalars for float infinity/NaN behavior -/

/-- Extended rational mirroring the `f32` values the slab method can produce:
finite values, the two infinities (from division by a zero direction
component) and NaN (from `0 * inf`). -/
inductive XQ where
  | nan
  | negInf
  | posInf
  | fin (q : ℚ)
deriving DecidableEq, Repr

/-- IEEE `<` on extended values: any comparison with NaN is false. -/
def xlt : XQ → XQ → Bool
  | .nan, _ => false
  | _, .nan => false
  | .negInf, .negInf => false
  | .negInf, _ => true
  | _, .negInf => false
  | .posInf, _ => false
  | .fin _, .posInf => true
  | .fin a, .fin b => decide (a < b)

/-- IEEE multiplication on extended values: NaN propagates, `0 * ±inf = NaN`,
otherwise the sign rules. -/
def xmul : XQ → XQ → XQ
  | .nan, _ => .nan
  | _, .nan => .nan
  | .fin a, .fin b => .fin (a * b)
  | .fin a, .posInf => if 0 < a then .posInf else if a < 0 then .negInf else .nan
  | .fin a, .negInf => if 0 < a then .negInf else if a < 0 then .posInf else .nan
  | .posInf, .fin b => if 0 < b then .posInf else if b < 0 then .negInf else .nan
  | .negInf, .fin b => if 0 < b then .negInf else if b < 0 then .posInf else .nan
  | .posInf, .posInf => .posInf
  | .posInf, .negInf => .negInf
  | .negInf, .posInf => .negInf
  | .negInf, .negInf => .posInf

/-- `inv_d = 1.0 / direction[i]`: division by (positive) zero produces
`+inf`. (`ℚ` has a single zero, so the `-0.0` pattern of `f32` does not
arise in this embedding.) -/
def slabInv (d : ℚ) : XQ := if d = 0 then .posInf else .fin (1 / d)

/-- The loop body update `t_min = if t0 > t_min { t0 } else { t_min }`
(IEEE `a > b` is `b < a`). -/
def um (tmin t0 : XQ) : XQ := if xlt tmin t0 then t0 else tmin

/-- The loop body update `t_max = if t1 < t_max { t1 } else { t_max }`. -/
def uM (tmax t1 : XQ) : XQ := if xlt t1 tmax then t1 else tmax

/-- The pair `(t0, t1)` of one slab axis after the conditional swap:
`t0 = (min - origin) * inv_d`, `t1 = (max - origin) * inv_d`, swapped when
`inv_d < 0`. -/
def slabP (bmin bmax o d : ℚ) : XQ × XQ :=
  if xlt (slabInv d) (.fin 0)
  then (xmul (.fin (bmax - o)) (slabInv d), xmul (.fin (bmin - o)) (slabInv d))
  else (xmul (.fin (bmin - o)) (slabInv d), xmul (.fin (bmax - o)) (slabInv d))

/-- The per-axis exit test: fail when `t_max < t_min`, otherwise keep the
tightened state. -/
def slabCheck (tmin2 tmax2 : XQ) : Option (XQ × XQ) :=
  if xlt tmax2 tmin2 then none else some (tmin2, tmax2)

/-- One axis of Andrew Kensler's slab method (`aabb.rs`): compute
`t0`/`t1`, swap when `inv_d < 0`, tighten `t_min`/`t_max`, and fail when
`t_max < t_min`. -/
def slabAxis (bmin bmax o d : ℚ) (tmin tmax : XQ) : Option (XQ × XQ) :=
  slabCheck (um tmin (slabP bmin bmax o d).1) (uM tmax (slabP bmin bmax o d).2)

/-- `Aabb::hit(ray, t_min, t_max)` from `aabb.rs`: the three slab axes in
order, returning false as soon as the interval empties. -/
def Aabb.hit (b : Aabb) (r : RayQ) (tmin tmax : XQ) : Bool :=
  match slabAxis b.min.x b.max.x r.origin.x r.direction.x tmin tmax with
  | none => false
  | some st1 =>
    match slabAxis b.min.y b.max.y r.origin.y r.direction.y st1.1 st1.2 with
    | none => false
    | some st2 =>
      match slabAxis b.min.z b.max.z r.origin.z r.direction.z st2.1 st2.2 with
      | none => false
      | some _ => true

/-! ### Shading kernel (`ray.rs`, `Ray::ray_color`) -/

/-- What an abstract world hit gives the shading kernel: the scatter decision
of the record's material (`None` when the ray is absorbed, otherwise the
attenuation color and the scattered ray), plus the emitted color that the
spec's reference kernel reads (the kernel in `ray.rs` has no emission
concept and ignores this field). -/
structure HitShade where
  emitted : Vec3q
  scatter : Option (Vec3q × RayQ)

/-- Component-wise color product (`DVec3` multiplication). -/
def cmul (a b : Vec3q) : Vec3q := ⟨a.x * b.x, a.y * b.y, a.z * b.z⟩

/-- Component-wise color sum. -/
def cadd (a b : Vec3q) : Vec3q := ⟨a.x + b.x, a.y + b.y, a.z + b.z⟩

/-- Scalar times color. -/
def smul (s : ℚ) (a : Vec3q) : Vec3q := ⟨s * a.x, s * a.y, s * a.z⟩

/-- The hardcoded sky gradient of `ray_color` in `ray.rs`:
`t = 0.5 * (unit_direction.y + 1)`, then
`(1-t)*(1,1,1) + t*(0.5,0.7,1.0)`. -/
def skyColor (unitDirY : ℚ) : Vec3q :=
  let t := 1/2 * (unitDirY + 1)
  cadd (smul (1 - t) ⟨1, 1, 1⟩) (smul t ⟨1/2, 7/10, 1⟩)

/-- `Ray::ray_color(world, depth)` from `ray.rs`. The world is abstract
(`world.hit(ray, t_min, t_max)`), and `unitY` embeds the float computation
`direction.normalize().y` (a square root, external to the rational
embedding). At `depth = 0` (`depth <= 0` on `u32`) the kernel returns black;
otherwise it intersects the world over `[0.001, +inf)`; on a hit it returns
`attenuation * ray_color(scattered, depth-1)` when the material scatters and
black when it does not; with no hit it returns the sky gradient. -/
def ray_color (unitY : RayQ → ℚ) (world : RayQ → ℚ → XQ → Option HitShade)
    (r : RayQ) (depth : ℕ) : Vec3q :=
  match depth with
  | 0 => ⟨0, 0, 0⟩
  | depth + 1 =>
    match world r (1/1000) XQ.posInf with
    | some hitRecord =>
      match hitRecord.scatter with
      | some (attenuation, scattered) =>
        cmul attenuation (ray_color unitY world scattered depth)
      | none => ⟨0, 0, 0⟩
    | none => skyColor (unitY r)

/-- Modelled from the spec: the reference shading kernel of section 4.6
(`ray_color(ray, world, depth, background)`), which returns the configured
background on a miss and `emitted + attenuation * ray_color(scattered)` on a
hit. This revision of `ray.rs` does not implement it; it is stated here to
compare against. -/
def ray_color_spec (world : RayQ → ℚ → XQ → Option HitShade)
    (background : Vec3q) (r : RayQ) (depth : ℕ) : Vec3q :=
  match depth with
  | 0 => ⟨0, 0, 0⟩
  | depth + 1 =>
    match world r (1/1000) XQ.posInf with
    | none => background
    | some rec0 =>
      match rec0.scatter with
      | none => rec0.emitted
      | some (attenuation, scattered) =>
        cadd rec0.emitted
          (cmul attenuation (ray_color_spec world background scattered depth))

/-- C6 (counterexample to the claim as stated): `ray_color` in `ray.rs` does
not satisfy the spec's reference definition. For a world with no geometry and
background `(0,0,0)`, a ray with unit direction `(0,1,0)` gets the hardcoded
sky gradient `(0.5, 0.7, 1.0)` from the code, while the reference kernel
returns the background `(0,0,0)`. -/
theorem c6_ray_color_counterexample :
    ray_color (fun _ => 1) (fun _ _ _ => none) ⟨⟨0, 0, 0⟩, ⟨0, 1, 0⟩⟩ 1 =
      ⟨1/2, 7/10, 1⟩ ∧
    ray_color_spec (fun _ _ _ => none) ⟨0, 0, 0⟩ ⟨⟨0, 0, 0⟩, ⟨0, 1, 0⟩⟩ 1 =
      ⟨0, 0, 0⟩ ∧
    (⟨1/2, 7/10, 1⟩ : Vec3q) ≠ ⟨0, 0, 0⟩ := by
  refine ⟨?_, rfl, by simp⟩
  show skyColor 1 = _
  unfold skyColor cadd smul
  norm_num

/-- C6 (amended): the kernel `ray_color` of `ray.rs` satisfies: at depth 0 it
returns `(0,0,0)`; it intersects the world over `[0.001, +inf)`; when no hit
record is produced it returns the hardcoded sky gradient (there is no
configurable background); when the material does not scatter it returns
`(0,0,0)` (there is no emission); otherwise it returns `attenuation` times
the recursive `ray_color` of the scattered ray at `depth - 1`. -/
theorem c6_ray_color (unitY : RayQ → ℚ) (world : RayQ → ℚ → XQ → Option HitShade)
    (r : RayQ) (depth : ℕ) :
    ray_color unitY world r 0 = ⟨0, 0, 0⟩ ∧
    (0 < depth → world r (1/1000) XQ.posInf = none →
      ray_color unitY world r depth = skyColor (unitY r)) ∧
    (0 < depth → ∀ rec0, world r (1/1000) XQ.posInf = some rec0 →
      rec0.scatter = none → ray_color unitY world r depth = ⟨0, 0, 0⟩) ∧
    (0 < depth → ∀ rec0 attenuation scattered,
      world r (1/1000) XQ.posInf = some rec0 →
      rec0.scatter = some (attenuation, scattered) →
      ray_color unitY world r depth =
        cmul attenuation (ray_color unitY world scattered (depth - 1))) := by
  refine ⟨rfl, ?_, ?_, ?_⟩
  · intro hd hw
    match depth, hd with
    | depth + 1, _ =>
      simp only [ray_color, hw]
  · intro hd rec0 hw hs
    match depth, hd with
    | depth + 1, _ =>
      simp only [ray_color, hw, hs]
  · intro hd rec0 attenuation scattered hw hs
    match depth, hd with
    | depth + 1, _ =>
      simp only [ray_color, hw, hs, Nat.add_sub_cancel]

/-- Witness instantiating `c6_ray_color` on a concrete one-hit world. -/
theorem c6_ray_color_witness :
    (let world : RayQ → ℚ → XQ → Option HitShade := fun r _ _ =>
      if r.origin.x = 0 then
        some ⟨⟨0, 0, 0⟩, some (⟨1/2, 1/2, 1/2⟩, ⟨⟨5, 0, 0⟩, ⟨0, 1, 0⟩⟩)⟩
      else none
    ray_color (fun _ => 1) world ⟨⟨0, 0, 0⟩, ⟨1, 0, 0⟩⟩ 0 = ⟨0, 0, 0⟩ ∧
    (0 < 2 → world ⟨⟨0, 0, 0⟩, ⟨1, 0, 0⟩⟩ (1/1000) XQ.posInf = none →
      ray_color (fun _ => 1) world ⟨⟨0, 0, 0⟩, ⟨1, 0, 0⟩⟩ 2 = skyColor 1) ∧
    (0 < 2 → ∀ rec0, world ⟨⟨0, 0, 0⟩, ⟨1, 0, 0⟩⟩ (1/1000) XQ.posInf = some rec0 →
      rec0.scatter = none →
      ray_color (fun _ => 1) world ⟨⟨0, 0, 0⟩, ⟨1, 0, 0⟩⟩ 2 = ⟨0, 0, 0⟩) ∧
    (0 < 2 → ∀ rec0 attenuation scattered,
      world ⟨⟨0, 0, 0⟩, ⟨1, 0, 0⟩⟩ (1/1000) XQ.posInf = some rec0 →
      rec0.scatter = some (attenuation, scattered) →
      ray_color (fun _ => 1) world ⟨⟨0, 0, 0⟩, ⟨1, 0, 0⟩⟩ 2 =
        cmul attenuation (ray_color (fun _ => 1) world scattered (2 - 1)))) :=
  c6_ray_color (fun _ => 1) _ ⟨⟨0, 0, 0⟩, ⟨1, 0, 0⟩⟩ 2

/-! ### Order structure of the extended scalars (no-NaN fragment) -/

/-- `a` is not NaN. -/
def nn (a : XQ) : Prop := a ≠ XQ.nan

instance (a : XQ) : Decidable (nn a) := by
  unfold nn; infer_instance

/-- IEEE `<=` on extended values (false whenever NaN is involved). -/
def xleB : XQ → XQ → Bool
  | .nan, _ => false
  | _, .nan => false
  | .negInf, _ => true
  | _, .negInf => false
  | _, .posInf => true
  | .posInf, _ => false
  | .fin a, .fin b => decide (a ≤ b)

theorem xleB_refl (a : XQ) (h : nn a) : xleB a a = true := by
  cases a <;> simp_all [xleB, nn]

theorem xleB_trans {a b c : XQ} (h1 : xleB a b = true) (h2 : xleB b c = true) :
    xleB a c = true := by
  cases a <;> cases b <;> cases c <;> simp_all [xleB] <;> linarith

theorem xleB_total {a b : XQ} (ha : nn a) (hb : nn b) :
    xleB a b = true ∨ xleB b a = true := by
  cases a <;> cases b <;> simp_all [xleB, nn]
  exact le_total _ _

theorem xleB_of_not_xlt {a b : XQ} (ha : nn a) (hb : nn b)
    (h : xlt a b = false) : xleB b a = true := by
  cases a <;> cases b <;> simp_all [xleB, xlt, nn]

theorem nn_of_xleB {a b : XQ} (h : xleB a b = true) : nn a ∧ nn b := by
  cases a <;> cases b <;> simp_all [xleB, nn]

theorem xlt_false_of_xleB {a b : XQ} (h : xleB a b = true) : xlt b a = false := by
  cases a <;> cases b <;> simp_all [xleB, xlt] <;> linarith

theorem xleB_of_xlt {a b : XQ} (h : xlt a b = true) : xleB a b = true := by
  cases a <;> cases b <;> simp_all [xleB, xlt] <;> linarith

theorem um_keep_nan (cur : XQ) : um cur .nan = cur := by
  cases cur <;> rfl

theorem um_keep_negInf (cur : XQ) : um cur .negInf = cur := by
  cases cur <;> rfl

theorem um_posInf (cur : XQ) (h : nn cur) : um cur .posInf = .posInf := by
  cases cur <;> simp_all [um, xlt, nn]

theorem um_nn (cur t0 : XQ) (h : nn cur) : nn (um cur t0) := by
  unfold um
  by_cases hlt : xlt cur t0 = true
  · rw [if_pos hlt]
    cases cur <;> cases t0 <;> simp_all [xlt, nn]
  · rw [if_neg hlt]
    exact h

theorem um_expand (cur t0 : XQ) (h : nn cur) : xleB cur (um cur t0) = true := by
  unfold um
  by_cases hlt : xlt cur t0 = true
  · rw [if_pos hlt]
    exact xleB_of_xlt hlt
  · rw [if_neg hlt]
    exact xleB_refl cur h

theorem um_mono {curA curB t0A t0B : XQ} (hc : xleB curA curB = true)
    (ht : xleB t0A t0B = true) : xleB (um curA t0A) (um curB t0B) = true := by
  obtain ⟨hnA, hnB⟩ := nn_of_xleB hc
  obtain ⟨hn0A, hn0B⟩ := nn_of_xleB ht
  unfold um
  by_cases h1 : xlt curA t0A = true <;> by_cases h2 : xlt curB t0B = true
  · rw [if_pos h1, if_pos h2]
    exact ht
  · rw [if_pos h1, if_neg h2]
    have h3 : xleB t0B curB = true :=
      xleB_of_not_xlt hnB hn0B (Bool.eq_false_iff.mpr h2)
    exact xleB_trans ht h3
  · rw [if_neg h1, if_pos h2]
    exact xleB_trans hc (xleB_of_xlt h2)
  · rw [if_neg h1, if_neg h2]
    exact hc

theorem uM_keep_nan (cur : XQ) : uM cur .nan = cur := by
  cases cur <;> rfl

theorem uM_keep_posInf (cur : XQ) : uM cur .posInf = cur := by
  cases cur <;> rfl

theorem uM_negInf (cur : XQ) (h : nn cur) : uM cur .negInf = .negInf := by
  cases cur <;> simp_all [uM, xlt, nn]

theorem uM_nn (cur t1 : XQ) (h : nn cur) : nn (uM cur t1) := by
  unfold uM
  by_cases hlt : xlt t1 cur = true
  · rw [if_pos hlt]
    cases cur <;> cases t1 <;> simp_all [xlt, nn]
  · rw [if_neg hlt]
    exact h

theorem uM_shrink (cur t1 : XQ) (h : nn cur) : xleB (uM cur t1) cur = true := by
  unfold uM
  by_cases hlt : xlt t1 cur = true
  · rw [if_pos hlt]
    exact xleB_of_xlt hlt
  · rw [if_neg hlt]
    exact xleB_refl cur h

theorem uM_mono {curA curB t1A t1B : XQ} (hc : xleB curB curA = true)
    (ht : xleB t1B t1A = true) : xleB (uM curB t1B) (uM curA t1A) = true := by
  obtain ⟨hnB, hnA⟩ := nn_of_xleB hc
  obtain ⟨hn1B, hn1A⟩ := nn_of_xleB ht
  unfold uM
  by_cases h1 : xlt t1A curA = true <;> by_cases h2 : xlt t1B curB = true
  · rw [if_pos h1, if_pos h2]
    exact ht
  · rw [if_pos h1, if_neg h2]
    have h3 : xleB curB t1B = true :=
      xleB_of_not_xlt hn1B hnB (Bool.eq_false_iff.mpr h2)
    exact xleB_trans h3 ht
  · rw [if_neg h1, if_pos h2]
    exact xleB_trans (xleB_of_xlt h2) hc
  · rw [if_neg h1, if_neg h2]
    exact hc

theorem xleB_negInf_left {a : XQ} (h : nn a) : xleB .negInf a = true := by
  cases a <;> simp_all [xleB, nn]

/-- `slabCheck` propagates wider states: if the narrow state passes, so does
the wide one, with a wider result. -/
theorem slabCheck_mono {mA MA mB MB : XQ} (hm : xleB mA mB = true)
    (hM : xleB MB MA = true) {sB2 : XQ × XQ}
    (hif : slabCheck mB MB = some sB2) :
    ∃ sA2, slabCheck mA MA = some sA2 ∧
      xleB sA2.1 sB2.1 = true ∧ xleB sB2.2 sA2.2 = true := by
  unfold slabCheck at hif ⊢
  by_cases hchkB : xlt MB mB = true
  · rw [if_pos hchkB] at hif
    cases hif
  · rw [if_neg hchkB] at hif
    have hBle : xleB mB MB = true := by
      apply xleB_of_not_xlt (nn_of_xleB hM).1 (nn_of_xleB hm).2
      exact Bool.eq_false_iff.mpr hchkB
    have hAle : xleB mA MA = true := xleB_trans (xleB_trans hm hBle) hM
    have hchkA : xlt MA mA = false := xlt_false_of_xleB hAle
    refine ⟨(mA, MA), ?_, ?_, ?_⟩
    · rw [hchkA]
      simp
    · injection hif with hif
      rw [← hif]
      exact hm
    · injection hif with hif
      rw [← hif]
      exact hM

theorem slabP_neg {bmin bmax o d : ℚ} (hd : d < 0) :
    slabP bmin bmax o d =
      (.fin ((bmax - o) * (1 / d)), .fin ((bmin - o) * (1 / d))) := by
  have hne : d ≠ 0 := ne_of_lt hd
  have hneg : 1 / d < 0 := one_div_neg.mpr hd
  unfold slabP slabInv
  rw [if_neg hne, if_pos (by simp only [xlt, decide_eq_true_eq]; exact hneg)]
  rfl

theorem slabP_pos {bmin bmax o d : ℚ} (hd : 0 < d) :
    slabP bmin bmax o d =
      (.fin ((bmin - o) * (1 / d)), .fin ((bmax - o) * (1 / d))) := by
  have hne : d ≠ 0 := ne_of_gt hd
  have hpos : 0 < 1 / d := one_div_pos.mpr hd
  unfold slabP slabInv
  rw [if_neg hne, if_neg (by simp only [xlt, decide_eq_true_eq]; linarith)]
  rfl

theorem slabP_zero {bmin bmax o : ℚ} :
    slabP bmin bmax o 0 =
      (xmul (.fin (bmin - o)) .posInf, xmul (.fin (bmax - o)) .posInf) := by
  unfold slabP slabInv
  rw [if_pos rfl, if_neg (by simp [xlt])]

/-- The `fin * posInf` case table of `xmul`. -/
theorem xmul_fin_posInf (a : ℚ) :
    xmul (.fin a) .posInf =
      if 0 < a then .posInf else if a < 0 then .negInf else .nan := rfl

/-- Monotonicity of one slab axis in the box: a wider slab interval and a
wider incoming `(t_min, t_max)` state pass whenever the narrower ones do,
with a wider outgoing state. -/
theorem slabAxis_mono {bminA bmaxA bminB bmaxB o d : ℚ}
    (hmin : bminA ≤ bminB) (hmax : bmaxB ≤ bmaxA)
    {tminA tmaxA tminB tmaxB : XQ}
    (h1 : xleB tminA tminB = true) (h2 : xleB tmaxB tmaxA = true)
    {sB2 : XQ × XQ}
    (hB : slabAxis bminB bmaxB o d tminB tmaxB = some sB2) :
    ∃ sA2, slabAxis bminA bmaxA o d tminA tmaxA = some sA2 ∧
      xleB sA2.1 sB2.1 = true ∧ xleB sB2.2 sA2.2 = true := by
  obtain ⟨hnmA, hnmB⟩ := nn_of_xleB h1
  obtain ⟨hnMB, hnMA⟩ := nn_of_xleB h2
  unfold slabAxis at hB ⊢
  rcases lt_trichotomy d 0 with hd | hd | hd
  · rw [slabP_neg hd] at hB ⊢
    have hneg : 1 / d < 0 := one_div_neg.mpr hd
    apply slabCheck_mono ?_ ?_ hB
    · apply um_mono h1
      simp only [xleB, decide_eq_true_eq]
      exact mul_le_mul_of_nonpos_right (by linarith) (le_of_lt hneg)
    · apply uM_mono h2
      simp only [xleB, decide_eq_true_eq]
      exact mul_le_mul_of_nonpos_right (by linarith) (le_of_lt hneg)
  · subst hd
    rw [slabP_zero] at hB ⊢
    apply slabCheck_mono ?_ ?_ hB
    · -- t_min updates under a zero direction component
      rcases lt_trichotomy (bminA - o) 0 with hA | hA | hA
      · rw [show xmul (XQ.fin (bminA - o)) .posInf = .negInf by
          rw [xmul_fin_posInf]; rw [if_neg (by linarith), if_pos hA]]
        rw [um_keep_negInf]
        exact xleB_trans h1 (um_expand tminB _ hnmB)
      · rw [show xmul (XQ.fin (bminA - o)) .posInf = .nan by
          rw [xmul_fin_posInf]; rw [if_neg (by linarith), if_neg (by linarith)]]
        rw [um_keep_nan]
        exact xleB_trans h1 (um_expand tminB _ hnmB)
      · have hB0 : 0 < bminB - o := by linarith
        rw [show xmul (XQ.fin (bminA - o)) .posInf = .posInf by
          rw [xmul_fin_posInf]; rw [if_pos hA]]
        rw [show xmul (XQ.fin (bminB - o)) .posInf = .posInf by
          rw [xmul_fin_posInf]; rw [if_pos hB0]]
        rw [um_posInf _ hnmA, um_posInf _ hnmB]
        rfl
    · -- t_max updates under a zero direction component
      rcases lt_trichotomy (bmaxB - o) 0 with hBc | hBc | hBc
      · rw [show xmul (XQ.fin (bmaxB - o)) .posInf = .negInf by
          rw [xmul_fin_posInf]; rw [if_neg (by linarith), if_pos hBc]]
        rw [uM_negInf _ hnMB]
        exact xleB_negInf_left (uM_nn _ _ hnMA)
      · rw [show xmul (XQ.fin (bmaxB - o)) .posInf = .nan by
          rw [xmul_fin_posInf]; rw [if_neg (by linarith), if_neg (by linarith)]]
        rw [uM_keep_nan]
        rcases lt_trichotomy (bmaxA - o) 0 with hAc | hAc | hAc
        · linarith
        · rw [show xmul (XQ.fin (bmaxA - o)) .posInf = .nan by
            rw [xmul_fin_posInf]; rw [if_neg (by linarith), if_neg (by linarith)]]
          rw [uM_keep_nan]
          exact h2
        · rw [show xmul (XQ.fin (bmaxA - o)) .posInf = .posInf by
            rw [xmul_fin_posInf]; rw [if_pos hAc]]
          rw [uM_keep_posInf]
          exact h2
      · have hA0 : 0 < bmaxA - o := by linarith
        rw [show xmul (XQ.fin (bmaxB - o)) .posInf = .posInf by
          rw [xmul_fin_posInf]; rw [if_pos hBc]]
        rw [show xmul (XQ.fin (bmaxA - o)) .posInf = .posInf by
          rw [xmul_fin_posInf]; rw [if_pos hA0]]
        rw [uM_keep_posInf, uM_keep_posInf]
        exact h2
  · rw [slabP_pos hd] at hB ⊢
    have hpos : 0 < 1 / d := one_div_pos.mpr hd
    apply slabCheck_mono ?_ ?_ hB
    · apply um_mono h1
      simp only [xleB, decide_eq_true_eq]
      exact mul_le_mul_of_nonneg_right (by linarith) (le_of_lt hpos)
    · apply uM_mono h2
      simp only [xleB, decide_eq_true_eq]
      exact mul_le_mul_of_nonneg_right (by linarith) (le_of_lt hpos)

/-! ### Abstract hittables and the BVH (`hittable.rs`, `bvh.rs`) -/

/-- An abstract bounded hittable: geometric primitives are out of scope of
the spec (interface contract only), so an object is its finite set of
candidate intersection parameters per ray, a bounding box, and an identity
(`oid`) that distinguishes the hit records it produces. -/
structure Object where
  oid : ℕ
  cands : RayQ → List ℚ
  box : Aabb

/-- A hit record, reduced to the data the claims speak about: the ray
parameter `t` of the intersection and the identity of the object hit. -/
structure HitRec where
  t : ℚ
  oid : ℕ
deriving DecidableEq, Repr

/-- The nearest candidate parameter within the closed query interval
(primitives reject a root `root` when `root < t_min || t_max < root`). -/
def nearestIn (l : List ℚ) (tmin tmax : ℚ) : Option ℚ :=
  (l.filter (fun t => decide (tmin ≤ t ∧ t ≤ tmax))).min?

/-- The `Hittable` contract: `hit` returns the nearest intersection with
`t ∈ [t_min, t_max]`. -/
def Object.hit (o : Object) (r : RayQ) (tmin tmax : ℚ) : Option HitRec :=
  (nearestIn (o.cands r) tmin tmax).map (fun t => ⟨t, o.oid⟩)

/-- The fold body of `HittableList::hit`: query the object with `t_max`
tightened to the closest hit so far (`closest.t` if present, else the
original `t_max`) and replace the record whenever a hit is returned. -/
def listStep (r : RayQ) (tmin tmax : ℚ) (closestYet : Option HitRec)
    (o : Object) : Option HitRec :=
  match Object.hit o r tmin
      (match closestYet with
        | some closest => closest.t
        | none => tmax) with
  | some h => some h
  | none => closestYet

/-- `HittableList::hit` from `hittable.rs`: fold over the objects in
insertion order. -/
def HittableList.hit (objects : List Object) (r : RayQ) (tmin tmax : ℚ) :
    Option HitRec :=
  objects.foldl (listStep r tmin tmax) none

/-- `Child` from `bvh.rs`: an interior node index or a leaf hittable. -/
inductive Child where
  | index (i : ℕ)
  | hittable (o : Object)

/-- `BvhNode` from `bvh.rs`. -/
structure BvhNode where
  parent : Option ℕ
  idx : ℕ
  left : Child
  right : Child
  bounding_box : Aabb

def junkObject : Object := ⟨0, fun _ => [], ⟨⟨0, 0, 0⟩, ⟨0, 0, 0⟩⟩⟩

def junkNode : BvhNode :=
  ⟨none, 0, .hittable junkObject, .hittable junkObject, ⟨⟨0, 0, 0⟩, ⟨0, 0, 0⟩⟩⟩

/-- The bounding box of a child (`nodes[i].bounding_box(..)` for an interior
child, `hittable.bounding_box(..)` for a leaf; both always return `Some` in
this embedding of bounded hittables). -/
def childBox (nodes : List BvhNode) : Child → Aabb
  | .index i => (nodes.getD i junkNode).bounding_box
  | .hittable o => o.box

/-- The box-comparator key: `a.bounding_box(0,0).min()[axis]`
(`box_compare` in `bvh.rs`); axis 0 is x, 1 is y, anything else z. -/
def axKey (axis : Fin 3) (o : Object) : ℚ :=
  if axis.val = 0 then o.box.min.x else if axis.val = 1 then o.box.min.y
  else o.box.min.z

/-- `nodes[i].parent = Some(k)`. -/
def setParent (nodes : List BvhNode) (i k : ℕ) : List BvhNode :=
  nodes.set i { nodes.getD i junkNode with parent := some k }

/-- `BvhNode::new_helper` from `bvh.rs`. The random split axis is supplied
by the oracle `axes`, consumed in call order via the counter `ctr` (the
source draws one axis from `thread_rng` per invocation). A single object
becomes both left and right leaves; two objects are ordered by the axis key
(`Ordering::Less`, i.e. strictly smaller key, picks the original order);
otherwise the slice is sorted by the axis key (a stable sort, as Rust's
`sort_by`), split at the midpoint, and both halves are built recursively.
The node's box is the union of the children's boxes, the children's parents
are then set to the new node's index, and the node is pushed last. The
source recurses forever on an empty slice, embedded here as `none`. -/
def new_helper (axes : ℕ → Fin 3) (objs : List Object) (ctr : ℕ)
    (nodes : List BvhNode) : Option (List BvhNode × ℕ × ℕ) :=
  match objs with
  | [] => none
  | [o] =>
    some (nodes ++ [⟨none, nodes.length, .hittable o, .hittable o,
      unionBoxes o.box o.box⟩], nodes.length, ctr + 1)
  | [o1, o2] =>
    let axis := axes ctr
    if axKey axis o1 < axKey axis o2 then
      some (nodes ++ [⟨none, nodes.length, .hittable o1, .hittable o2,
        unionBoxes o1.box o2.box⟩], nodes.length, ctr + 1)
    else
      some (nodes ++ [⟨none, nodes.length, .hittable o2, .hittable o1,
        unionBoxes o2.box o1.box⟩], nodes.length, ctr + 1)
  | o1 :: o2 :: o3 :: rest =>
    let axis := axes ctr
    let sorted := (o1 :: o2 :: o3 :: rest).mergeSort
      (fun a b => decide (axKey axis a ≤ axKey axis b))
    let mid := sorted.length / 2
    match new_helper axes (sorted.take mid) (ctr + 1) nodes with
    | none => none
    | some (nodes1, li, c1) =>
      match new_helper axes (sorted.drop mid) c1 nodes1 with
      | none => none
      | some (nodes2, ri, c2) =>
        let k := nodes2.length
        let bbox := unionBoxes (childBox nodes2 (.index li))
          (childBox nodes2 (.index ri))
        let nodes3 := setParent (setParent nodes2 li k) ri k
        some (nodes3 ++ [⟨none, k, .index li, .index ri, bbox⟩], k, c2)
termination_by objs.length
decreasing_by
  · simp only [List.length_take, List.length_mergeSort, List.length_cons]
    omega
  · simp only [List.length_drop, List.length_mergeSort, List.length_cons]
    omega

/-- `Bvh::new`: build the node array from the object list (the returned pair
is the nodes array and the root index). -/
def Bvh.build (objs : List Object) (axes : ℕ → Fin 3) :
    Option (List BvhNode × ℕ) :=
  match new_helper axes objs 0 [] with
  | none => none
  | some (nodes, root, _) => some (nodes, root)

/-- A leaf hit inside `BvhNode::hit`: the hittable's own `hit` over the given
interval, reported together with the index of the node holding the leaf
(`LeafNodeIdx(self.idx)`). -/
def leafHit (o : Object) (selfIdx : ℕ) (r : RayQ) (tmin tmax : ℚ) :
    Option (HitRec × ℕ) :=
  (Object.hit o r tmin tmax).map (fun h => (h, selfIdx))

/-- `BvhNode::hit` from `bvh.rs`, fuel-indexed (the source recursion is
structurally bounded because children always have smaller indices than their
parent; with `fuel > k` the fuel never runs out, see `nodeHit_fuel`).
Rejects when the node's box is not hit; intersects the left child over
`[t_min, t_max]`; intersects the right child over `[t_min, t_max_right]`
when it is a leaf hittable but over the original `[t_min, t_max]` when it
is an interior index (`nodes[*i].hit(ray, t_min, t_max, ..)` on line 370);
returns the closer hit, preferring the right one on ties. -/
def nodeHit (nodes : List BvhNode) : ℕ → ℕ → RayQ → ℚ → ℚ →
    Option (HitRec × ℕ)
  | 0, _, _, _, _ => none
  | fuel + 1, k, r, tmin, tmax =>
    let n := nodes.getD k junkNode
    if ¬ (Aabb.hit n.bounding_box r (.fin tmin) (.fin tmax)) = true then none
    else
      let hitLeft := match n.left with
        | .index i => nodeHit nodes fuel i r tmin tmax
        | .hittable o => leafHit o n.idx r tmin tmax
      let tMaxForRight := match hitLeft with
        | some hl => hl.1.t
        | none => tmax
      let hitRight := match n.right with
        | .index i => nodeHit nodes fuel i r tmin tmax
        | .hittable o => leafHit o n.idx r tmin tMaxForRight
      match hitLeft, hitRight with
      | none, none => none
      | some l, none => some l
      | none, some rr => some rr
      | some l, some rr => if l.1.t < rr.1.t then some l else some rr

/-- `Bvh::hit` without a predictor: traverse from the root and drop the leaf
index. -/
def bvhHit (nodes : List BvhNode) (root : ℕ) (r : RayQ) (tmin tmax : ℚ) :
    Option HitRec :=
  (nodeHit nodes (root + 1) root r tmin tmax).map Prod.fst

/-- Box containment implies the slab test is monotone: if the contained box
is hit over a (NaN-free) interval, so is the containing box. -/
theorem aabbHit_mono {A B : Aabb} (hc : containsB A B) (r : RayQ)
    {tmin tmax : XQ} (hm : nn tmin) (hM : nn tmax)
    (hB : Aabb.hit B r tmin tmax = true) : Aabb.hit A r tmin tmax = true := by
  obtain ⟨c1, c2, c3, c4, c5, c6⟩ := hc
  unfold Aabb.hit at hB ⊢
  cases hx : slabAxis B.min.x B.max.x r.origin.x r.direction.x tmin tmax with
  | none => rw [hx] at hB; exact absurd hB (by simp)
  | some sBx =>
    rw [hx] at hB
    dsimp only [] at hB
    obtain ⟨sAx, hAx, w1x, w2x⟩ :=
      slabAxis_mono c1 c4 (xleB_refl tmin hm) (xleB_refl tmax hM) hx
    rw [hAx]
    dsimp only []
    cases hy : slabAxis B.min.y B.max.y r.origin.y r.direction.y sBx.1 sBx.2 with
    | none => rw [hy] at hB; exact absurd hB (by simp)
    | some sBy =>
      rw [hy] at hB
      dsimp only [] at hB
      obtain ⟨sAy, hAy, w1y, w2y⟩ := slabAxis_mono c2 c5 w1x w2x hy
      rw [hAy]
      dsimp only []
      cases hz : slabAxis B.min.z B.max.z r.origin.z r.direction.z sBy.1 sBy.2 with
      | none => rw [hz] at hB; exact absurd hB (by simp)
      | some sBz =>
        obtain ⟨sAz, hAz, _, _⟩ := slabAxis_mono c3 c6 w1y w2y hz
        rw [hAz]

/-! ### Nearest-hit characterizations -/

instance : Std.Antisymm (fun x1 x2 : ℚ => x1 ≤ x2) where
  antisymm h1 h2 := le_antisymm h1 h2

theorem minQ_eq_some_iff {xs : List ℚ} {a : ℚ} :
    xs.min? = some a ↔ a ∈ xs ∧ ∀ b ∈ xs, a ≤ b :=
  List.min?_eq_some_iff (fun _ => le_refl _) (fun a b => min_choice a b)
    (fun _ _ _ => le_min_iff)

theorem nearestIn_some_iff {l : List ℚ} {tmin tmax t : ℚ} :
    nearestIn l tmin tmax = some t ↔
      (t ∈ l ∧ tmin ≤ t ∧ t ≤ tmax) ∧
      ∀ s ∈ l, tmin ≤ s → s ≤ tmax → t ≤ s := by
  unfold nearestIn
  rw [minQ_eq_some_iff]
  simp only [List.mem_filter, decide_eq_true_eq]
  constructor
  · rintro ⟨⟨h1, h2, h3⟩, h4⟩
    exact ⟨⟨h1, h2, h3⟩, fun s hs hs1 hs2 => h4 s ⟨hs, hs1, hs2⟩⟩
  · rintro ⟨⟨h1, h2, h3⟩, h4⟩
    exact ⟨⟨h1, h2, h3⟩, fun s hs => h4 s hs.1 hs.2.1 hs.2.2⟩

theorem nearestIn_none_iff {l : List ℚ} {tmin tmax : ℚ} :
    nearestIn l tmin tmax = none ↔
      ∀ s ∈ l, tmin ≤ s → s ≤ tmax → False := by
  unfold nearestIn
  rw [List.min?_eq_none_iff, List.filter_eq_nil_iff]
  simp

theorem objHit_some_iff {o : Object} {r : RayQ} {tmin tmax : ℚ} {h : HitRec} :
    Object.hit o r tmin tmax = some h ↔
      h.oid = o.oid ∧ (h.t ∈ o.cands r ∧ tmin ≤ h.t ∧ h.t ≤ tmax) ∧
        ∀ s ∈ o.cands r, tmin ≤ s → s ≤ tmax → h.t ≤ s := by
  unfold Object.hit
  rw [Option.map_eq_some']
  constructor
  · rintro ⟨t, ht, rfl⟩
    have := nearestIn_some_iff.mp ht
    exact ⟨rfl, this.1, this.2⟩
  · rintro ⟨hoid, hmem, hmin⟩
    refine ⟨h.t, nearestIn_some_iff.mpr ⟨hmem, hmin⟩, ?_⟩
    cases h
    simp_all

theorem objHit_none_iff {o : Object} {r : RayQ} {tmin tmax : ℚ} :
    Object.hit o r tmin tmax = none ↔
      ∀ s ∈ o.cands r, tmin ≤ s → s ≤ tmax → False := by
  unfold Object.hit
  rw [Option.map_eq_none']
  exact nearestIn_none_iff

/-- No object of the list intersects the ray inside `[tmin, tmax]`. -/
def HitsNone (objs : List Object) (r : RayQ) (tmin tmax : ℚ) : Prop :=
  ∀ o ∈ objs, ∀ s ∈ o.cands r, tmin ≤ s → s ≤ tmax → False

/-- `t` is the parameter of a nearest intersection of the list inside
`[tmin, tmax]`. -/
def NearestT (objs : List Object) (r : RayQ) (tmin tmax : ℚ) (t : ℚ) : Prop :=
  (∃ o ∈ objs, t ∈ o.cands r) ∧ tmin ≤ t ∧ t ≤ tmax ∧
    ∀ o ∈ objs, ∀ s ∈ o.cands r, tmin ≤ s → s ≤ tmax → t ≤ s

theorem NearestT.not_hitsNone {objs : List Object} {r : RayQ} {tmin tmax t : ℚ}
    (h : NearestT objs r tmin tmax t) (hn : HitsNone objs r tmin tmax) :
    False := by
  obtain ⟨⟨o, ho, hc⟩, h1, h2, _⟩ := h
  exact hn o ho t hc h1 h2

theorem NearestT.unique {objs : List Object} {r : RayQ} {tmin tmax t1 t2 : ℚ}
    (h1 : NearestT objs r tmin tmax t1) (h2 : NearestT objs r tmin tmax t2) :
    t1 = t2 := by
  obtain ⟨⟨o1, ho1, hc1⟩, ha1, hb1, hm1⟩ := h1
  obtain ⟨⟨o2, ho2, hc2⟩, ha2, hb2, hm2⟩ := h2
  exact le_antisymm (hm1 o2 ho2 t2 hc2 ha2 hb2) (hm2 o1 ho1 t1 hc1 ha1 hb1)

/-- Two optional nearest-hit parameters both characterized by the same list
coincide. -/
theorem opt_t_eq {objs : List Object} {r : RayQ} {tmin tmax : ℚ}
    {x y : Option ℚ}
    (hxs : ∀ t, x = some t → NearestT objs r tmin tmax t)
    (hxn : x = none → HitsNone objs r tmin tmax)
    (hys : ∀ t, y = some t → NearestT objs r tmin tmax t)
    (hyn : y = none → HitsNone objs r tmin tmax) : x = y := by
  cases x with
  | none =>
    cases y with
    | none => rfl
    | some t => exact absurd ((hys t rfl).not_hitsNone (hxn rfl)) not_false
  | some t =>
    cases y with
    | none => exact absurd ((hxs t rfl).not_hitsNone (hyn rfl)) not_false
    | some s => rw [(hxs t rfl).unique (hys s rfl)]

theorem listHit_go (r : RayQ) (tmin tmax : ℚ) (objs : List Object) :
    ∀ (acc : Option HitRec),
      (∀ ha, acc = some ha → tmin ≤ ha.t ∧ ha.t ≤ tmax) →
      (∀ h, objs.foldl (listStep r tmin tmax) acc = some h →
        (tmin ≤ h.t ∧ h.t ≤ tmax) ∧
        (∀ ha, acc = some ha → h.t ≤ ha.t) ∧
        (∀ o ∈ objs, ∀ s ∈ o.cands r, tmin ≤ s → s ≤ tmax → h.t ≤ s) ∧
        ((∃ o ∈ objs, h.oid = o.oid ∧ h.t ∈ o.cands r) ∨ acc = some h)) ∧
      (objs.foldl (listStep r tmin tmax) acc = none →
        acc = none ∧ HitsNone objs r tmin tmax) := by
  induction objs with
  | nil =>
    intro acc hacc
    constructor
    · intro h hfold
      simp only [List.foldl_nil] at hfold
      refine ⟨hacc h hfold, ?_, ?_, Or.inr hfold⟩
      · intro ha hh
        rw [hh] at hfold
        injection hfold with hfold
        rw [hfold]
      · intro o ho
        simp at ho
    · intro hfold
      simp only [List.foldl_nil] at hfold
      exact ⟨hfold, fun o ho => by simp at ho⟩
  | cons o rest ih =>
    intro acc hacc
    cases hA : acc with
    | none =>
      cases ho : Object.hit o r tmin tmax with
      | none =>
        have hstep : listStep r tmin tmax none o = none := by
          unfold listStep
          rw [ho]
        have hrest := ih none (by intro ha h; cases h)
        have honone := objHit_none_iff.mp ho
        constructor
        · intro h hf
          rw [List.foldl_cons, hstep] at hf
          obtain ⟨hb, _, hmin, hprov⟩ := (hrest.1 h hf)
          refine ⟨hb, ?_, ?_, ?_⟩
          · intro ha hha
            cases hha
          · intro o2 ho2 s hs hs1 hs2
            rcases List.mem_cons.mp ho2 with rfl | ho3
            · exact absurd (honone s hs hs1 hs2) not_false
            · exact hmin o2 ho3 s hs hs1 hs2
          · rcases hprov with ⟨o2, ho2, hp⟩ | hp
            · exact Or.inl ⟨o2, List.mem_cons_of_mem o ho2, hp⟩
            · cases hp
        · intro hf
          rw [List.foldl_cons, hstep] at hf
          obtain ⟨_, hnone⟩ := hrest.2 hf
          refine ⟨rfl, ?_⟩
          intro o2 ho2 s hs hs1 hs2
          rcases List.mem_cons.mp ho2 with rfl | ho3
          · exact honone s hs hs1 hs2
          · exact hnone o2 ho3 s hs hs1 hs2
      | some h0 =>
        have hstep : listStep r tmin tmax none o = some h0 := by
          unfold listStep
          rw [ho]
        obtain ⟨hoid0, ⟨hmem0, hb01, hb02⟩, hmin0⟩ := objHit_some_iff.mp ho
        have hrest := ih (some h0) (by
          intro ha hh
          injection hh with hh
          rw [← hh]
          exact ⟨hb01, hb02⟩)
        constructor
        · intro h hf
          rw [List.foldl_cons, hstep] at hf
          obtain ⟨hb, hle, hmin, hprov⟩ := hrest.1 h hf
          have hleh0 : h.t ≤ h0.t := hle h0 rfl
          refine ⟨hb, ?_, ?_, ?_⟩
          · intro ha hha
            cases hha
          · intro o2 ho2 s hs hs1 hs2
            rcases List.mem_cons.mp ho2 with rfl | ho3
            · exact le_trans hleh0 (hmin0 s hs hs1 hs2)
            · exact hmin o2 ho3 s hs hs1 hs2
          · rcases hprov with ⟨o2, ho2, hp⟩ | hp
            · exact Or.inl ⟨o2, List.mem_cons_of_mem o ho2, hp⟩
            · injection hp with hp
              exact Or.inl ⟨o, List.mem_cons_self o rest, by
                rw [← hp]; exact ⟨hoid0, hmem0⟩⟩
        · intro hf
          rw [List.foldl_cons, hstep] at hf
          obtain ⟨hcon, _⟩ := hrest.2 hf
          cases hcon
    | some ha =>
      obtain ⟨hba1, hba2⟩ := hacc ha hA
      cases ho : Object.hit o r tmin ha.t with
      | none =>
        have hstep : listStep r tmin tmax (some ha) o = some ha := by
          unfold listStep
          rw [ho]
        have honone := objHit_none_iff.mp ho
        have hrest := ih (some ha) (by
          intro ha2 hh
          injection hh with hh
          rw [← hh]
          exact ⟨hba1, hba2⟩)
        constructor
        · intro h hf
          rw [List.foldl_cons, hstep] at hf
          obtain ⟨hb, hle, hmin, hprov⟩ := hrest.1 h hf
          have hleha : h.t ≤ ha.t := hle ha rfl
          refine ⟨hb, ?_, ?_, ?_⟩
          · intro ha2 hha2
            injection hha2 with hha2
            rw [← hha2]
            exact hleha
          · intro o2 ho2 s hs hs1 hs2
            rcases List.mem_cons.mp ho2 with rfl | ho3
            · by_cases hsha : s ≤ ha.t
              · exact absurd (honone s hs hs1 hsha) not_false
              · exact le_trans hleha (le_of_not_le hsha)
            · exact hmin o2 ho3 s hs hs1 hs2
          · rcases hprov with ⟨o2, ho2, hp⟩ | hp
            · exact Or.inl ⟨o2, List.mem_cons_of_mem o ho2, hp⟩
            · exact Or.inr hp
        · intro hf
          rw [List.foldl_cons, hstep] at hf
          obtain ⟨hcon, _⟩ := hrest.2 hf
          cases hcon
      | some h0 =>
        have hstep : listStep r tmin tmax (some ha) o = some h0 := by
          unfold listStep
          rw [ho]
        obtain ⟨hoid0, ⟨hmem0, hb01, hb02⟩, hmin0⟩ := objHit_some_iff.mp ho
        have hrest := ih (some h0) (by
          intro ha2 hh
          injection hh with hh
          rw [← hh]
          exact ⟨hb01, le_trans hb02 hba2⟩)
        constructor
        · intro h hf
          rw [List.foldl_cons, hstep] at hf
          obtain ⟨hb, hle, hmin, hprov⟩ := hrest.1 h hf
          have hleh0 : h.t ≤ h0.t := hle h0 rfl
          refine ⟨hb, ?_, ?_, ?_⟩
          · intro ha2 hha2
            injection hha2 with hha2
            rw [← hha2]
            exact le_trans hleh0 hb02
          · intro o2 ho2 s hs hs1 hs2
            rcases List.mem_cons.mp ho2 with rfl | ho3
            · by_cases hsha : s ≤ ha.t
              · exact le_trans hleh0 (hmin0 s hs hs1 hsha)
              · exact le_trans (le_trans hleh0 hb02) (le_of_not_le hsha)
            · exact hmin o2 ho3 s hs hs1 hs2
          · rcases hprov with ⟨o2, ho2, hp⟩ | hp
            · exact Or.inl ⟨o2, List.mem_cons_of_mem o ho2, hp⟩
            · injection hp with hp
              exact Or.inl ⟨o, List.mem_cons_self o rest, by
                rw [← hp]; exact ⟨hoid0, hmem0⟩⟩
        · intro hf
          rw [List.foldl_cons, hstep] at hf
          obtain ⟨hcon, _⟩ := hrest.2 hf
          cases hcon

/-- `HittableList::hit` computes a nearest hit: characterization of the
brute-force scan. -/
theorem listHit_char (objs : List Object) (r : RayQ) (tmin tmax : ℚ) :
    (∀ h, HittableList.hit objs r tmin tmax = some h →
      NearestT objs r tmin tmax h.t) ∧
    (HittableList.hit objs r tmin tmax = none →
      HitsNone objs r tmin tmax) := by
  have hgo := listHit_go r tmin tmax objs none (by intro ha h; cases h)
  constructor
  · intro h hf
    obtain ⟨⟨hb1, hb2⟩, _, hmin, hprov⟩ := hgo.1 h hf
    rcases hprov with ⟨o, ho, _, hc⟩ | hp
    · exact ⟨⟨o, ho, hc⟩, hb1, hb2, hmin⟩
    · cases hp
  · intro hf
    exact (hgo.2 hf).2

/-! ### Structural invariants of the built BVH -/

/-- Children always sit at strictly smaller indices than their parent node
(construction pushes children before the parent). Out-of-range nodes are the
junk node, whose children are leaves, so the condition is vacuous there. -/
def wfDec (nodes : List BvhNode) : Prop :=
  ∀ j i, ((nodes.getD j junkNode).left = .index i ∨
    (nodes.getD j junkNode).right = .index i) → i < j

/-- Every node records its own position in `idx`. -/
def idxOk (nodes : List BvhNode) : Prop :=
  ∀ j, j < nodes.length → (nodes.getD j junkNode).idx = j

/-- The fields of a node that traversal reads (everything except `parent`). -/
def presEq (a b : BvhNode) : Prop :=
  a.idx = b.idx ∧ a.left = b.left ∧ a.right = b.right ∧
    a.bounding_box = b.bounding_box

theorem presEq_refl (a : BvhNode) : presEq a a := ⟨rfl, rfl, rfl, rfl⟩

theorem presEq_trans {a b c : BvhNode} (h1 : presEq a b) (h2 : presEq b c) :
    presEq a c :=
  ⟨h1.1.trans h2.1, h1.2.1.trans h2.2.1, h1.2.2.1.trans h2.2.2.1,
    h1.2.2.2.trans h2.2.2.2⟩

theorem setParent_length (nodes : List BvhNode) (i k : ℕ) :
    (setParent nodes i k).length = nodes.length := by
  unfold setParent
  exact List.length_set nodes i _

theorem setParent_getD_ne (nodes : List BvhNode) (i k j : ℕ) (h : j ≠ i) :
    (setParent nodes i k).getD j junkNode = nodes.getD j junkNode := by
  unfold setParent List.getD
  simp only [List.get?_eq_getElem?]
  rw [List.getElem?_set_ne (by omega)]

theorem setParent_getD_eq (nodes : List BvhNode) (i k : ℕ)
    (h : i < nodes.length) :
    (setParent nodes i k).getD i junkNode =
      { nodes.getD i junkNode with parent := some k } := by
  unfold setParent List.getD
  simp only [List.get?_eq_getElem?]
  rw [List.getElem?_set_self h]
  rfl

theorem setParent_presEq (nodes : List BvhNode) (i k j : ℕ) :
    presEq (nodes.getD j junkNode) ((setParent nodes i k).getD j junkNode) := by
  by_cases hj : j = i
  · subst hj
    by_cases hl : j < nodes.length
    · rw [setParent_getD_eq nodes j k hl]
      exact ⟨rfl, rfl, rfl, rfl⟩
    · unfold setParent List.getD
      simp only [List.get?_eq_getElem?]
      rw [List.getElem?_set, if_pos rfl, if_neg hl]
      rw [List.getElem?_eq_none (by omega)]
      exact presEq_refl _
  · rw [setParent_getD_ne nodes i k j hj]
    exact presEq_refl _

theorem append_getD_lt (nodes l : List BvhNode) (j : ℕ) (h : j < nodes.length) :
    (nodes ++ l).getD j junkNode = nodes.getD j junkNode := by
  unfold List.getD
  simp only [List.get?_eq_getElem?]
  rw [List.getElem?_append, if_pos h]

/-- Traversal reads only `idx`, `left`, `right` and `bounding_box` of nodes
at indices at most `k` (children have smaller indices), so any extension or
parent-field update of the nodes array preserves its result. -/
theorem nodeHit_frame (nodes1 nodes2 : List BvhNode) (hw : wfDec nodes1) :
    ∀ (fuel : ℕ) (k : ℕ) (r : RayQ) (tmin tmax : ℚ),
      (∀ j, j ≤ k → presEq (nodes1.getD j junkNode) (nodes2.getD j junkNode)) →
      nodeHit nodes2 fuel k r tmin tmax = nodeHit nodes1 fuel k r tmin tmax := by
  intro fuel
  induction fuel with
  | zero => intro k r tmin tmax h; rfl
  | succ fuel ih =>
    intro k r tmin tmax hpres
    obtain ⟨hidx, hleft, hright, hbox⟩ := hpres k (le_refl k)
    have hrec : ∀ i, i < k → ∀ tmax2,
        nodeHit nodes2 fuel i r tmin tmax2 = nodeHit nodes1 fuel i r tmin tmax2 :=
      fun i hik tmax2 =>
        ih i r tmin tmax2 (fun j hj => hpres j (le_trans hj (le_of_lt hik)))
    simp only [nodeHit]
    rw [← hbox, ← hidx, ← hleft, ← hright]
    cases hL : (nodes1.getD k junkNode).left with
    | index i =>
      have hi := hw k i (Or.inl hL)
      cases hR : (nodes1.getD k junkNode).right with
      | index i2 =>
        have hi2 := hw k i2 (Or.inr hR)
        dsimp only []
        rw [hrec i hi tmax, hrec i2 hi2 tmax]
      | hittable o =>
        dsimp only []
        rw [hrec i hi tmax]
    | hittable o =>
      cases hR : (nodes1.getD k junkNode).right with
      | index i2 =>
        have hi2 := hw k i2 (Or.inr hR)
        dsimp only []
        rw [hrec i2 hi2 tmax]
      | hittable o2 => rfl

theorem append_getD_last (nodes : List BvhNode) (a : BvhNode) :
    (nodes ++ [a]).getD nodes.length junkNode = a := by
  unfold List.getD
  simp only [List.get?_eq_getElem?]
  rw [List.getElem?_append_right (le_refl _)]
  simp

/-- The object's bounding box is sound for this query: whenever the object
intersects the ray inside `[tmin, tmax]`, the slab test on its box succeeds
over that interval. This is the contract of `bounding_box` for bounded
hittables, stated per query because the slab method rejects degenerate
intervals (`t_max <= t_min` after clamping) that the closed-interval
primitive `hit` still accepts. -/
def BoxOk (o : Object) (r : RayQ) (tmin tmax : ℚ) : Prop :=
  ∀ s ∈ o.cands r, tmin ≤ s → s ≤ tmax →
    Aabb.hit o.box r (.fin tmin) (.fin tmax) = true

/-- Structural invariants of `new_helper axes objs ctr nodes0 = some (nodes,
k, ctr2)`: the prefix is untouched, the new region is well-formed
(children at smaller, in-region indices; `idx` fields correct; every
non-root region node has a parent; nodes have two leaf children or two
interior children; the root's kind matches the input size), the root box
contains every input object's box, and every region node's box contains its
children's boxes. -/
structure StaticInv (objs : List Object) (nodes0 nodes : List BvhNode)
    (k : ℕ) : Prop where
  lb : nodes0.length ≤ k
  ub : k < nodes.length
  last : k = nodes.length - 1
  pres : ∀ j, j < nodes0.length →
    nodes.getD j junkNode = nodes0.getD j junkNode
  wf : wfDec nodes
  idx : idxOk nodes
  childLB : ∀ j i, nodes0.length ≤ j →
    ((nodes.getD j junkNode).left = .index i ∨
      (nodes.getD j junkNode).right = .index i) → nodes0.length ≤ i
  rootPar : (nodes.getD k junkNode).parent = none
  parSome : ∀ j, nodes0.length ≤ j → j < nodes.length → j ≠ k →
    (nodes.getD j junkNode).parent ≠ none
  kinds : ∀ j, nodes0.length ≤ j → j < nodes.length →
    (∃ o1 o2, (nodes.getD j junkNode).left = .hittable o1 ∧
      (nodes.getD j junkNode).right = .hittable o2) ∨
    (∃ i1 i2, (nodes.getD j junkNode).left = .index i1 ∧
      (nodes.getD j junkNode).right = .index i2)
  rootKindBig : 3 ≤ objs.length → ∃ i1 i2,
    (nodes.getD k junkNode).left = .index i1 ∧
    (nodes.getD k junkNode).right = .index i2
  rootKindSmall : objs.length ≤ 2 → ∃ o1 o2,
    (nodes.getD k junkNode).left = .hittable o1 ∧
    (nodes.getD k junkNode).right = .hittable o2
  boxC : ∀ o ∈ objs, containsB (nodes.getD k junkNode).bounding_box o.box
  subs : ∀ j, nodes0.length ≤ j → j < nodes.length →
    containsB (nodes.getD j junkNode).bounding_box
      (childBox nodes (nodes.getD j junkNode).left) ∧
    containsB (nodes.getD j junkNode).bounding_box
      (childBox nodes (nodes.getD j junkNode).right)

/-- The invariant for a freshly pushed single node with two leaf children
(the `objects.len() <= 2` arms of `new_helper`). -/
theorem staticInv_leafNode (objs : List Object) (nodes0 : List BvhNode)
    (oL oR : Object) (hlen : objs.length ≤ 2)
    (hmem : ∀ o ∈ objs, o = oL ∨ o = oR)
    (hw0 : wfDec nodes0) (hidx0 : idxOk nodes0) :
    StaticInv objs nodes0
      (nodes0 ++ [⟨none, nodes0.length, .hittable oL, .hittable oR,
        unionBoxes oL.box oR.box⟩]) nodes0.length := by
  set node : BvhNode := ⟨none, nodes0.length, .hittable oL, .hittable oR,
    unionBoxes oL.box oR.box⟩ with hnode
  have hget : (nodes0 ++ [node]).getD nodes0.length junkNode = node :=
    append_getD_last nodes0 node
  have hlen2 : (nodes0 ++ [node]).length = nodes0.length + 1 := by simp
  refine ⟨le_refl _, by omega, by omega, ?_, ?_, ?_, ?_, ?_, ?_, ?_, ?_, ?_,
    ?_, ?_⟩
  · intro j hj
    exact append_getD_lt nodes0 [node] j hj
  · intro j i hchild
    rcases Nat.lt_trichotomy j nodes0.length with hj | hj | hj
    · rw [append_getD_lt nodes0 [node] j hj] at hchild
      exact hw0 j i hchild
    · rw [← hj] at hget
      rw [hget] at hchild
      rcases hchild with h | h <;> cases h
    · have : (nodes0 ++ [node]).getD j junkNode = junkNode := by
        unfold List.getD
        simp only [List.get?_eq_getElem?]
        rw [List.getElem?_eq_none (by simp; omega)]
        rfl
      rw [this] at hchild
      rcases hchild with h | h <;> cases h
  · intro j hj
    rcases Nat.lt_or_ge j nodes0.length with h | h
    · rw [append_getD_lt nodes0 [node] j h]
      exact hidx0 j h
    · have : j = nodes0.length := by
        rw [hlen2] at hj
        omega
      rw [this, hget]
  · intro j i hj hchild
    rcases Nat.lt_or_ge j (nodes0.length + 1) with h | h
    · have hj2 : j = nodes0.length := by omega
      rw [hj2, hget] at hchild
      rcases hchild with h2 | h2 <;> cases h2
    · have : (nodes0 ++ [node]).getD j junkNode = junkNode := by
        unfold List.getD
        simp only [List.get?_eq_getElem?]
        rw [List.getElem?_eq_none (by simp; omega)]
        rfl
      rw [this] at hchild
      rcases hchild with h2 | h2 <;> cases h2
  · rw [hget]
  · intro j hj1 hj2 hj3
    rw [hlen2] at hj2
    omega
  · intro j hj1 hj2
    rw [hlen2] at hj2
    have : j = nodes0.length := by omega
    rw [this, hget]
    exact Or.inl ⟨oL, oR, rfl, rfl⟩
  · intro h3
    omega
  · intro _
    rw [hget]
    exact ⟨oL, oR, rfl, rfl⟩
  · intro o ho
    rw [hget]
    rcases hmem o ho with rfl | rfl
    · exact containsB_unionBoxes_left o.box oR.box
    · exact containsB_unionBoxes_right oL.box o.box
  · intro j hj1 hj2
    rw [hlen2] at hj2
    have : j = nodes0.length := by omega
    rw [this, hget]
    exact ⟨containsB_unionBoxes_left _ _, containsB_unionBoxes_right _ _⟩

theorem static_master (n : ℕ) :
    ∀ (objs : List Object), objs.length ≤ n →
    ∀ (axes : ℕ → Fin 3) (ctr : ℕ) (nodes0 nodes : List BvhNode) (k ctr2 : ℕ),
      new_helper axes objs ctr nodes0 = some (nodes, k, ctr2) →
      wfDec nodes0 → idxOk nodes0 → StaticInv objs nodes0 nodes k := by
  induction n with
  | zero =>
    intro objs hlen axes ctr nodes0 nodes k ctr2 hB _ _
    have : objs = [] := List.length_eq_zero.mp (by omega)
    subst this
    rw [new_helper] at hB
    cases hB
  | succ n ih =>
    intro objs hlen axes ctr nodes0 nodes k ctr2 hB hw0 hidx0
    match objs, hlen with
    | [], _ =>
      rw [new_helper] at hB
      cases hB
    | [o], _ =>
      rw [new_helper] at hB
      simp only [Option.some.injEq, Prod.mk.injEq] at hB
      obtain ⟨h1, h2, _⟩ := hB
      rw [← h1, ← h2]
      exact staticInv_leafNode [o] nodes0 o o (by simp)
        (by intro o2 ho2; simp at ho2; exact Or.inl ho2) hw0 hidx0
    | [o1, o2], _ =>
      rw [new_helper] at hB
      split at hB <;>
      · simp only [Option.some.injEq, Prod.mk.injEq] at hB
        obtain ⟨h1, h2, _⟩ := hB
        rw [← h1, ← h2]
        refine staticInv_leafNode [o1, o2] nodes0 _ _ (by simp) ?_ hw0 hidx0
        intro o3 ho3
        simp at ho3
        rcases ho3 with rfl | rfl
        · simp
        · simp
    | o1 :: o2 :: o3 :: rest, hlen3 =>
      have hl3 : rest.length + 3 ≤ n + 1 := by simpa using hlen3
      rw [new_helper] at hB
      set sorted : List Object := (o1 :: o2 :: o3 :: rest).mergeSort
        (fun a b => decide (axKey (axes ctr) a ≤ axKey (axes ctr) b)) with hsorted
      set mid : ℕ := sorted.length / 2 with hmid
      have hslen : sorted.length = rest.length + 3 := by
        rw [hsorted, List.length_mergeSort]
        simp
      have hmid1 : 1 ≤ mid := by omega
      have hmidlt : mid < sorted.length := by omega
      have hlenL : (sorted.take mid).length = mid := by
        rw [List.length_take]
        omega
      have hlenR : (sorted.drop mid).length = sorted.length - mid :=
        List.length_drop mid sorted
      cases hL : new_helper axes (sorted.take mid) (ctr + 1) nodes0 with
      | none => rw [hL] at hB; cases hB
      | some res1 =>
        obtain ⟨nodes1, li, c1⟩ := res1
        rw [hL] at hB
        dsimp only [] at hB
        cases hR : new_helper axes (sorted.drop mid) c1 nodes1 with
        | none => rw [hR] at hB; cases hB
        | some res2 =>
          obtain ⟨nodes2, ri, c2⟩ := res2
          rw [hR] at hB
          dsimp only [] at hB
          simp only [Option.some.injEq, Prod.mk.injEq] at hB
          obtain ⟨hnodes, hk, _⟩ := hB
          have SL := ih (sorted.take mid) (by rw [hlenL]; omega) axes
            (ctr + 1) nodes0 nodes1 li c1 hL hw0 hidx0
          have SR := ih (sorted.drop mid) (by rw [hlenR]; omega) axes c1
            nodes1 nodes2 ri c2 hR SL.wf SL.idx
          have hk1 : nodes1.length ≤ nodes2.length := by
            have := SR.lb
            have := SR.ub
            omega
          have hli2 : li < nodes2.length := lt_of_lt_of_le SL.ub hk1
          have hlneri : li ≠ ri := by
            have := SR.lb
            have := SL.ub
            omega
          have hperm : ∀ o : Object,
              (o ∈ sorted.take mid ∨ o ∈ sorted.drop mid) ↔
                o ∈ o1 :: o2 :: o3 :: rest := by
            intro o
            rw [← List.mem_append, List.take_append_drop]
            rw [hsorted]
            exact (List.mergeSort_perm (o1 :: o2 :: o3 :: rest) _).mem_iff
          set K : ℕ := nodes2.length with hK
          set node : BvhNode := ⟨none, K, .index li, .index ri,
            unionBoxes (childBox nodes2 (.index li))
              (childBox nodes2 (.index ri))⟩ with hnd
          set sp2 : List BvhNode := setParent (setParent nodes2 li K) ri K
            with hsp2
          have hsplen : sp2.length = K := by
            rw [hsp2, setParent_length, setParent_length]
          have hnlen : (sp2 ++ [node]).length = K + 1 := by
            simp [hsplen]
          have hgetk : (sp2 ++ [node]).getD K junkNode = node := by
            rw [← hsplen]
            exact append_getD_last sp2 node
          have hfull : ∀ j, j < K → j ≠ li → j ≠ ri →
              (sp2 ++ [node]).getD j junkNode = nodes2.getD j junkNode := by
            intro j hj hne1 hne2
            rw [append_getD_lt _ _ j (by omega), hsp2,
              setParent_getD_ne _ _ _ _ hne2, setParent_getD_ne _ _ _ _ hne1]
          have hpresq : ∀ j, j < K →
              presEq (nodes2.getD j junkNode)
                ((sp2 ++ [node]).getD j junkNode) := by
            intro j hj
            rw [append_getD_lt _ _ j (by omega)]
            exact presEq_trans (setParent_presEq nodes2 li K j)
              (setParent_presEq (setParent nodes2 li K) ri K j)
          have hgetli : (sp2 ++ [node]).getD li junkNode =
              { nodes2.getD li junkNode with parent := some K } := by
            rw [append_getD_lt _ _ li (by omega), hsp2,
              setParent_getD_ne _ _ _ _ hlneri, setParent_getD_eq _ _ _ hli2]
          have hgetri : (sp2 ++ [node]).getD ri junkNode =
              { nodes2.getD ri junkNode with parent := some K } := by
            rw [append_getD_lt _ _ ri (by have := SR.ub; omega), hsp2,
              setParent_getD_eq _ _ _ (by rw [setParent_length]; exact SR.ub),
              setParent_getD_ne _ _ _ _ (Ne.symm hlneri)]
          have hgetbig : ∀ j, K + 1 ≤ j →
              (sp2 ++ [node]).getD j junkNode = junkNode := by
            intro j hj
            unfold List.getD
            simp only [List.get?_eq_getElem?]
            rw [List.getElem?_eq_none (by rw [hnlen]; omega)]
            rfl
          rw [← hnodes, ← hk]
          constructor
          case lb =>
            have := SL.lb
            have := SL.ub
            omega
          case ub => omega
          case last => omega
          case pres =>
            intro j hj
            have hj1 : j < nodes1.length := by
              have := SL.lb
              have := SL.ub
              omega
            have hjli : j ≠ li := by
              have := SL.lb
              omega
            have hjri : j ≠ ri := by
              have := SR.lb
              omega
            rw [hfull j (by omega) hjli hjri, SR.pres j hj1, SL.pres j hj]
          case wf =>
            intro j i hchild
            rcases Nat.lt_trichotomy j K with hj | hj | hj
            · have hpe := hpresq j hj
              rw [← hpe.2.1, ← hpe.2.2.1] at hchild
              exact SR.wf j i hchild
            · rw [hj, hgetk, hnd] at hchild
              have h1 : li < K := hli2
              have h2 : ri < K := SR.ub
              rcases hchild with h | h <;> injection h with h <;> omega
            · rw [hgetbig j (by omega)] at hchild
              rcases hchild with h | h <;> cases h
          case idx =>
            intro j hj
            rw [hnlen] at hj
            rcases Nat.lt_or_ge j K with h | h
            · have hpe := hpresq j h
              rw [← hpe.1]
              exact SR.idx j h
            · have : j = K := by omega
              rw [this, hgetk]
          case childLB =>
            intro j i hj hchild
            rcases Nat.lt_trichotomy j K with hjK | hjK | hjK
            · have hpe := hpresq j hjK
              rw [← hpe.2.1, ← hpe.2.2.1] at hchild
              rcases Nat.lt_or_ge j nodes1.length with hj1 | hj1
              · rw [SR.pres j hj1] at hchild
                exact SL.childLB j i hj hchild
              · have h1 := SR.childLB j i hj1 hchild
                have h2 := SL.lb
                have h3 := SL.ub
                omega
            · rw [hjK, hgetk, hnd] at hchild
              have h1 := SL.lb
              have h2 := SL.ub
              have h3 := SR.lb
              rcases hchild with h | h <;> injection h with h <;> omega
            · rw [hgetbig j (by omega)] at hchild
              rcases hchild with h | h <;> cases h
          case rootPar =>
            rw [hgetk, hnd]
          case parSome =>
            intro j hj1 hj2 hj3
            rw [hnlen] at hj2
            have hjK : j < K := by omega
            by_cases hjli : j = li
            · rw [hjli, hgetli]
              simp
            · by_cases hjri : j = ri
              · rw [hjri, hgetri]
                simp
              · rw [hfull j hjK hjli hjri]
                rcases Nat.lt_or_ge j nodes1.length with hj4 | hj4
                · have hne : j ≠ li := hjli
                  have : (nodes1.getD j junkNode).parent ≠ none := by
                    apply SL.parSome j hj1 hj4
                    have := SL.last
                    omega
                  rw [SR.pres j hj4]
                  exact this
                · apply SR.parSome j hj4 hjK
                  have := SR.last
                  omega
          case kinds =>
            intro j hj1 hj2
            rw [hnlen] at hj2
            rcases Nat.lt_or_ge j K with hjK | hjK
            · have hpe := hpresq j hjK
              rw [← hpe.2.1, ← hpe.2.2.1]
              rcases Nat.lt_or_ge j nodes1.length with hj4 | hj4
              · rw [SR.pres j hj4]
                exact SL.kinds j hj1 hj4
              · exact SR.kinds j hj4 hjK
            · have : j = K := by omega
              rw [this, hgetk, hnd]
              exact Or.inr ⟨li, ri, rfl, rfl⟩
          case rootKindBig =>
            intro _
            rw [hgetk, hnd]
            exact ⟨li, ri, rfl, rfl⟩
          case rootKindSmall =>
            intro hcon
            simp only [List.length_cons] at hcon
            omega
          case boxC =>
            intro o ho
            rw [hgetk, hnd]
            rcases (hperm o).mpr ho with hoL | hoR
            · have h1 := SL.boxC o hoL
              have hcb : childBox nodes2 (Child.index li) =
                  (nodes1.getD li junkNode).bounding_box := by
                show (nodes2.getD li junkNode).bounding_box = _
                rw [SR.pres li SL.ub]
              apply containsB_trans (containsB_unionBoxes_left _ _)
              rw [hcb]
              exact h1
            · have h1 := SR.boxC o hoR
              apply containsB_trans (containsB_unionBoxes_right _ _)
              exact h1
          case subs =>
            intro j hj1 hj2
            rw [hnlen] at hj2
            have hchildBox : ∀ i, i < K →
                childBox (sp2 ++ [node]) (Child.index i) =
                  childBox nodes2 (Child.index i) := by
              intro i hi
              show ((sp2 ++ [node]).getD i junkNode).bounding_box =
                (nodes2.getD i junkNode).bounding_box
              rw [← (hpresq i hi).2.2.2]
            have hchildBox1 : ∀ i, i < nodes1.length →
                childBox (sp2 ++ [node]) (Child.index i) =
                  childBox nodes1 (Child.index i) := by
              intro i hi
              rw [hchildBox i (by omega)]
              show (nodes2.getD i junkNode).bounding_box =
                (nodes1.getD i junkNode).bounding_box
              rw [SR.pres i hi]
            rcases Nat.lt_or_ge j K with hjK | hjK
            · have hpe := hpresq j hjK
              rw [← hpe.2.1, ← hpe.2.2.1, ← hpe.2.2.2]
              rcases Nat.lt_or_ge j nodes1.length with hj4 | hj4
              · have hs := SL.subs j hj1 hj4
                rw [SR.pres j hj4]
                constructor
                · cases hcl : (nodes1.getD j junkNode).left with
                  | index i =>
                    have hiw : i < j := SL.wf j i (Or.inl hcl)
                    rw [hchildBox1 i (by omega)]
                    have h2 := hs.1
                    rw [hcl] at h2
                    exact h2
                  | hittable o =>
                    have h2 := hs.1
                    rw [hcl] at h2
                    exact h2
                · cases hcl : (nodes1.getD j junkNode).right with
                  | index i =>
                    have hiw : i < j := SL.wf j i (Or.inr hcl)
                    rw [hchildBox1 i (by omega)]
                    have h2 := hs.2
                    rw [hcl] at h2
                    exact h2
                  | hittable o =>
                    have h2 := hs.2
                    rw [hcl] at h2
                    exact h2
              · have hs := SR.subs j hj4 hjK
                constructor
                · cases hcl : (nodes2.getD j junkNode).left with
                  | index i =>
                    have hiw : i < j := SR.wf j i (Or.inl hcl)
                    rw [hchildBox i (by omega)]
                    have h2 := hs.1
                    rw [hcl] at h2
                    exact h2
                  | hittable o =>
                    have h2 := hs.1
                    rw [hcl] at h2
                    exact h2
                · cases hcl : (nodes2.getD j junkNode).right with
                  | index i =>
                    have hiw : i < j := SR.wf j i (Or.inr hcl)
                    rw [hchildBox i (by omega)]
                    have h2 := hs.2
                    rw [hcl] at h2
                    exact h2
                  | hittable o =>
                    have h2 := hs.2
                    rw [hcl] at h2
                    exact h2
            · have : j = K := by omega
              rw [this, hgetk, hnd]
              constructor
              · rw [hchildBox li hli2]
                exact containsB_unionBoxes_left _ _
              · rw [hchildBox ri SR.ub]
                exact containsB_unionBoxes_right _ _

theorem containsB_unionBoxes_of {a b c : Aabb} (h1 : containsB a b)
    (h2 : containsB a c) : containsB a (unionBoxes b c) := by
  obtain ⟨x1, x2, x3, x4, x5, x6⟩ := h1
  obtain ⟨y1, y2, y3, y4, y5, y6⟩ := h2
  exact ⟨le_min x1 y1, le_min x2 y2, le_min x3 y3, max_le x4 y4, max_le x5 y5,
    max_le x6 y6⟩

theorem wfDec_nil : wfDec [] := by
  intro j i hchild
  have : ([] : List BvhNode).getD j junkNode = junkNode := rfl
  rw [this] at hchild
  rcases hchild with h | h <;> cases h

theorem idxOk_nil : idxOk [] := by
  intro j hj
  simp at hj

/-- The `StaticInv` of a successful top-level build (`Bvh.build`). -/
theorem build_staticInv {objs : List Object} {axes : ℕ → Fin 3}
    {nodes : List BvhNode} {root : ℕ}
    (hb : Bvh.build objs axes = some (nodes, root)) :
    StaticInv objs [] nodes root := by
  unfold Bvh.build at hb
  cases hB : new_helper axes objs 0 [] with
  | none => rw [hB] at hb; cases hb
  | some res =>
    obtain ⟨nodes2, k2, c2⟩ := res
    rw [hB] at hb
    simp only [Option.some.injEq, Prod.mk.injEq] at hb
    obtain ⟨h1, h2⟩ := hb
    rw [← h1, ← h2]
    exact static_master objs.length objs (le_refl _) axes 0 [] nodes2 k2 c2 hB
      wfDec_nil idxOk_nil

/-- C7: in every BVH produced by construction, every node's bounding box
contains the union of its two children's bounding boxes (equivalently, each
child's box component-wise), for every node of the `nodes` array. -/
theorem c7_bvh_subsumption (objs : List Object) (axes : ℕ → Fin 3)
    (nodes : List BvhNode) (root : ℕ)
    (hb : Bvh.build objs axes = some (nodes, root)) :
    ∀ j, j < nodes.length →
      containsB (nodes.getD j junkNode).bounding_box
        (unionBoxes (childBox nodes (nodes.getD j junkNode).left)
          (childBox nodes (nodes.getD j junkNode).right)) := by
  have hs := build_staticInv hb
  intro j hj
  have := hs.subs j (by simp) hj
  exact containsB_unionBoxes_of this.1 this.2

/-! ### Traversal correctness of `BvhNode::hit` -/

theorem nn_fin (t : ℚ) : nn (XQ.fin t) := by
  intro h
  cases h

theorem HitsNone.mono {objs : List Object} {r : RayQ} {tmin tmax tmax2 : ℚ}
    (h : HitsNone objs r tmin tmax) (hle : tmax2 ≤ tmax) :
    HitsNone objs r tmin tmax2 :=
  fun o ho s hs h1 h2 => h o ho s hs h1 (le_trans h2 hle)

theorem objHit_nearest {o : Object} {r : RayQ} {tmin tmax : ℚ} {h : HitRec}
    (ho : Object.hit o r tmin tmax = some h) : NearestT [o] r tmin tmax h.t := by
  obtain ⟨_, ⟨hc, h1, h2⟩, hmin⟩ := objHit_some_iff.mp ho
  refine ⟨⟨o, List.mem_singleton_self o, hc⟩, h1, h2, ?_⟩
  intro o2 ho2 s hs hs1 hs2
  rw [List.mem_singleton.mp ho2] at hs
  exact hmin s hs hs1 hs2

theorem objHit_hitsNone {o : Object} {r : RayQ} {tmin tmax : ℚ}
    (ho : Object.hit o r tmin tmax = none) : HitsNone [o] r tmin tmax := by
  have := objHit_none_iff.mp ho
  intro o2 ho2 s hs hs1 hs2
  rw [List.mem_singleton.mp ho2] at hs
  exact this s hs hs1 hs2

theorem nearest_split_left {objsL objsR objs : List Object}
    (hm : ∀ o, o ∈ objs ↔ o ∈ objsL ∨ o ∈ objsR)
    {r : RayQ} {tmin tmax t : ℚ}
    (hL : NearestT objsL r tmin tmax t) (hR : HitsNone objsR r tmin t) :
    NearestT objs r tmin tmax t := by
  obtain ⟨⟨o, ho, hc⟩, h1, h2, hmin⟩ := hL
  refine ⟨⟨o, (hm o).mpr (Or.inl ho), hc⟩, h1, h2, ?_⟩
  intro o2 ho2 s hs hs1 hs2
  rcases (hm o2).mp ho2 with h | h
  · exact hmin o2 h s hs hs1 hs2
  · by_cases hst : s ≤ t
    · exact absurd (hR o2 h s hs hs1 hst) not_false
    · exact le_of_not_le hst

theorem nearest_split_right {objsL objsR objs : List Object}
    (hm : ∀ o, o ∈ objs ↔ o ∈ objsL ∨ o ∈ objsR)
    {r : RayQ} {tmin tmax t : ℚ}
    (hL : HitsNone objsL r tmin tmax) (hR : NearestT objsR r tmin tmax t) :
    NearestT objs r tmin tmax t := by
  obtain ⟨⟨o, ho, hc⟩, h1, h2, hmin⟩ := hR
  refine ⟨⟨o, (hm o).mpr (Or.inr ho), hc⟩, h1, h2, ?_⟩
  intro o2 ho2 s hs hs1 hs2
  rcases (hm o2).mp ho2 with h | h
  · exact absurd (hL o2 h s hs hs1 hs2) not_false
  · exact hmin o2 h s hs hs1 hs2

/-- Combining a left nearest hit with a right nearest hit over the interval
tightened to the left hit: the right hit is at least as close and is the
list's nearest hit. -/
theorem nearest_split_both_tight {objsL objsR objs : List Object}
    (hm : ∀ o, o ∈ objs ↔ o ∈ objsL ∨ o ∈ objsR)
    {r : RayQ} {tmin tmax tl tr : ℚ}
    (hL : NearestT objsL r tmin tmax tl) (hR : NearestT objsR r tmin tl tr) :
    tr ≤ tl ∧ NearestT objs r tmin tmax tr := by
  obtain ⟨⟨oL, hoL, hcL⟩, hL1, hL2, hminL⟩ := hL
  obtain ⟨⟨oR, hoR, hcR⟩, hR1, hR2, hminR⟩ := hR
  refine ⟨hR2, ⟨oR, (hm oR).mpr (Or.inr hoR), hcR⟩, hR1, le_trans hR2 hL2, ?_⟩
  intro o2 ho2 s hs hs1 hs2
  rcases (hm o2).mp ho2 with h | h
  · exact le_trans hR2 (hminL o2 h s hs hs1 hs2)
  · by_cases hstl : s ≤ tl
    · exact hminR o2 h s hs hs1 hstl
    · exact le_trans hR2 (le_of_not_le hstl)

/-- Combining two nearest hits over the same interval: the closer one (the
left on strict ties of the comparison `tl < tr`) is the list's nearest. -/
theorem nearest_split_both_full {objsL objsR objs : List Object}
    (hm : ∀ o, o ∈ objs ↔ o ∈ objsL ∨ o ∈ objsR)
    {r : RayQ} {tmin tmax tl tr : ℚ}
    (hL : NearestT objsL r tmin tmax tl) (hR : NearestT objsR r tmin tmax tr) :
    NearestT objs r tmin tmax (if tl < tr then tl else tr) := by
  obtain ⟨⟨oL, hoL, hcL⟩, hL1, hL2, hminL⟩ := hL
  obtain ⟨⟨oR, hoR, hcR⟩, hR1, hR2, hminR⟩ := hR
  by_cases hcmp : tl < tr
  · rw [if_pos hcmp]
    refine ⟨⟨oL, (hm oL).mpr (Or.inl hoL), hcL⟩, hL1, hL2, ?_⟩
    intro o2 ho2 s hs hs1 hs2
    rcases (hm o2).mp ho2 with h | h
    · exact hminL o2 h s hs hs1 hs2
    · exact le_trans (le_of_lt hcmp) (hminR o2 h s hs hs1 hs2)
  · rw [if_neg hcmp]
    refine ⟨⟨oR, (hm oR).mpr (Or.inr hoR), hcR⟩, hR1, hR2, ?_⟩
    intro o2 ho2 s hs hs1 hs2
    rcases (hm o2).mp ho2 with h | h
    · exact le_trans (le_of_not_lt hcmp) (hminL o2 h s hs hs1 hs2)
    · exact hminR o2 h s hs hs1 hs2

theorem hitsNone_split {objsL objsR objs : List Object}
    (hm : ∀ o, o ∈ objs ↔ o ∈ objsL ∨ o ∈ objsR)
    {r : RayQ} {tmin tmax : ℚ}
    (hL : HitsNone objsL r tmin tmax) (hR : HitsNone objsR r tmin tmax) :
    HitsNone objs r tmin tmax := by
  intro o ho s hs hs1 hs2
  rcases (hm o).mp ho with h | h
  · exact hL o h s hs hs1 hs2
  · exact hR o h s hs hs1 hs2

/-- If the root box's slab test fails over `[tmin, tmax]`, no object of the
subtree intersects the ray there (box soundness plus subsumption). -/
theorem boxFail_hitsNone {objs : List Object} {nodes0 nodes : List BvhNode}
    {k : ℕ} (SI : StaticInv objs nodes0 nodes k) {r : RayQ} {tmin tmax : ℚ}
    (hbx : ∀ o ∈ objs, BoxOk o r tmin tmax)
    (hf : ¬ Aabb.hit (nodes.getD k junkNode).bounding_box r
      (.fin tmin) (.fin tmax) = true) :
    HitsNone objs r tmin tmax := by
  intro o ho s hs hs1 hs2
  have h1 : Aabb.hit o.box r (.fin tmin) (.fin tmax) = true :=
    hbx o ho s hs hs1 hs2
  exact hf (aabbHit_mono (SI.boxC o ho) r (nn_fin tmin) (nn_fin tmax) h1)

/-- Traversal characterization at a freshly pushed node with two leaf
hittable children: the traversal result is the nearest hit of the node's
objects over `[tmin, tmax]`. -/
theorem leafNode_hit_char (objs : List Object) (nodes0 : List BvhNode)
    (oL oR : Object) (hmem : ∀ o, o ∈ objs ↔ o = oL ∨ o = oR)
    (f : ℕ) (r : RayQ) (tmin tmax : ℚ)
    (hbL : BoxOk oL r tmin tmax) (hbR : BoxOk oR r tmin tmax) :
    (∀ p, nodeHit (nodes0 ++ [⟨none, nodes0.length, .hittable oL, .hittable oR,
        unionBoxes oL.box oR.box⟩]) (f + 1) nodes0.length r tmin tmax = some p →
      NearestT objs r tmin tmax p.1.t) ∧
    (nodeHit (nodes0 ++ [⟨none, nodes0.length, .hittable oL, .hittable oR,
        unionBoxes oL.box oR.box⟩]) (f + 1) nodes0.length r tmin tmax = none →
      HitsNone objs r tmin tmax) := by
  set node : BvhNode := ⟨none, nodes0.length, .hittable oL, .hittable oR,
    unionBoxes oL.box oR.box⟩ with hnd
  have hget : (nodes0 ++ [node]).getD nodes0.length junkNode = node :=
    append_getD_last nodes0 node
  have hm : ∀ o, o ∈ objs ↔ o ∈ [oL] ∨ o ∈ [oR] := by
    intro o
    rw [hmem o]
    simp
  by_cases hbox : Aabb.hit (unionBoxes oL.box oR.box) r
      (.fin tmin) (.fin tmax) = true
  · cases hl : Object.hit oL r tmin tmax with
    | some h =>
      have hlh : leafHit oL nodes0.length r tmin tmax =
          some (h, nodes0.length) := by
        unfold leafHit
        rw [hl]
        rfl
      cases hr : Object.hit oR r tmin h.t with
      | some h2 =>
        have hrh : leafHit oR nodes0.length r tmin h.t =
            some (h2, nodes0.length) := by
          unfold leafHit
          rw [hr]
          rfl
        obtain ⟨hle, hN⟩ := nearest_split_both_tight hm (objHit_nearest hl)
          (objHit_nearest hr)
        have hres : nodeHit (nodes0 ++ [node]) (f + 1) nodes0.length
            r tmin tmax = some (h2, nodes0.length) := by
          simp only [nodeHit]
          rw [hget, hnd]
          dsimp only []
          rw [if_neg (not_not_intro hbox), hlh]
          dsimp only []
          rw [hrh]
          dsimp only []
          rw [if_neg (not_lt.mpr hle)]
        constructor
        · intro p hp
          rw [hres] at hp
          injection hp with hp
          rw [← hp]
          exact hN
        · intro hcon
          rw [hres] at hcon
          cases hcon
      | none =>
        have hrh : leafHit oR nodes0.length r tmin h.t = none := by
          unfold leafHit
          rw [hr]
          rfl
        have hN := nearest_split_left hm (objHit_nearest hl)
          (objHit_hitsNone hr)
        have hres : nodeHit (nodes0 ++ [node]) (f + 1) nodes0.length
            r tmin tmax = some (h, nodes0.length) := by
          simp only [nodeHit]
          rw [hget, hnd]
          dsimp only []
          rw [if_neg (not_not_intro hbox), hlh]
          dsimp only []
          rw [hrh]
        constructor
        · intro p hp
          rw [hres] at hp
          injection hp with hp
          rw [← hp]
          exact hN
        · intro hcon
          rw [hres] at hcon
          cases hcon
    | none =>
      have hlh : leafHit oL nodes0.length r tmin tmax = none := by
        unfold leafHit
        rw [hl]
        rfl
      cases hr : Object.hit oR r tmin tmax with
      | some h2 =>
        have hrh : leafHit oR nodes0.length r tmin tmax =
            some (h2, nodes0.length) := by
          unfold leafHit
          rw [hr]
          rfl
        have hN := nearest_split_right hm (objHit_hitsNone hl)
          (objHit_nearest hr)
        have hres : nodeHit (nodes0 ++ [node]) (f + 1) nodes0.length
            r tmin tmax = some (h2, nodes0.length) := by
          simp only [nodeHit]
          rw [hget, hnd]
          dsimp only []
          rw [if_neg (not_not_intro hbox), hlh]
          dsimp only []
          rw [hrh]
        constructor
        · intro p hp
          rw [hres] at hp
          injection hp with hp
          rw [← hp]
          exact hN
        · intro hcon
          rw [hres] at hcon
          cases hcon
      | none =>
        have hrh : leafHit oR nodes0.length r tmin tmax = none := by
          unfold leafHit
          rw [hr]
          rfl
        have hN := hitsNone_split hm (objHit_hitsNone hl)
          (objHit_hitsNone hr)
        have hres : nodeHit (nodes0 ++ [node]) (f + 1) nodes0.length
            r tmin tmax = none := by
          simp only [nodeHit]
          rw [hget, hnd]
          dsimp only []
          rw [if_neg (not_not_intro hbox), hlh]
          dsimp only []
          rw [hrh]
        constructor
        · intro p hp
          rw [hres] at hp
          cases hp
        · intro _
          exact hN
  · have hres : nodeHit (nodes0 ++ [node]) (f + 1) nodes0.length
        r tmin tmax = none := by
      simp only [nodeHit]
      rw [hget, hnd]
      dsimp only []
      rw [if_pos hbox]
    constructor
    · intro p hp
      rw [hres] at hp
      cases hp
    · intro _
      intro o ho s hs hs1 hs2
      apply hbox
      rcases (hmem o).mp ho with rfl | rfl
      · exact aabbHit_mono (containsB_unionBoxes_left _ _) r (nn_fin tmin)
          (nn_fin tmax) (hbL s hs hs1 hs2)
      · exact aabbHit_mono (containsB_unionBoxes_right _ _) r (nn_fin tmin)
          (nn_fin tmax) (hbR s hs hs1 hs2)

/-- Traversal correctness: for every successful `new_helper` construction,
`BvhNode::hit` from the built root computes exactly the nearest hit of the
input objects (and reports no hit exactly when there is none), for any
sufficient fuel. -/
theorem hit_master (n : ℕ) :
    ∀ (objs : List Object), objs.length ≤ n →
    ∀ (axes : ℕ → Fin 3) (ctr : ℕ) (nodes0 nodes : List BvhNode) (k ctr2 : ℕ),
      new_helper axes objs ctr nodes0 = some (nodes, k, ctr2) →
      wfDec nodes0 → idxOk nodes0 →
      ∀ (r : RayQ) (tmin tmax : ℚ), (∀ o ∈ objs, BoxOk o r tmin tmax) →
      ∀ (f : ℕ), k < f →
        (∀ p, nodeHit nodes f k r tmin tmax = some p →
          NearestT objs r tmin tmax p.1.t) ∧
        (nodeHit nodes f k r tmin tmax = none →
          HitsNone objs r tmin tmax) := by
  induction n with
  | zero =>
    intro objs hlen axes ctr nodes0 nodes k ctr2 hB _ _
    have : objs = [] := List.length_eq_zero.mp (by omega)
    subst this
    rw [new_helper] at hB
    cases hB
  | succ n ih =>
    intro objs hlen axes ctr nodes0 nodes k ctr2 hB hw0 hidx0
    have SI := static_master (n + 1) objs hlen axes ctr nodes0 nodes k ctr2 hB
      hw0 hidx0
    match objs, hlen, SI with
    | [], _, _ =>
      rw [new_helper] at hB
      cases hB
    | [o], _, _ =>
      rw [new_helper] at hB
      simp only [Option.some.injEq, Prod.mk.injEq] at hB
      obtain ⟨h1, h2, _⟩ := hB
      rw [← h1, ← h2]
      intro r tmin tmax hbox f hf
      cases f with
      | zero => exact absurd hf (Nat.not_lt_zero _)
      | succ f2 =>
        exact leafNode_hit_char [o] nodes0 o o (by intro o2; simp)
          f2 r tmin tmax (hbox o (by simp)) (hbox o (by simp))
    | [o1, o2], _, _ =>
      rw [new_helper] at hB
      split at hB
      · simp only [Option.some.injEq, Prod.mk.injEq] at hB
        obtain ⟨h1, h2, _⟩ := hB
        rw [← h1, ← h2]
        intro r tmin tmax hbox f hf
        cases f with
        | zero => exact absurd hf (Nat.not_lt_zero _)
        | succ f2 =>
          refine leafNode_hit_char [o1, o2] nodes0 o1 o2 ?_ f2 r tmin tmax
            (hbox o1 (by simp)) (hbox o2 (by simp))
          intro o3
          rw [List.mem_cons, List.mem_singleton]
      · simp only [Option.some.injEq, Prod.mk.injEq] at hB
        obtain ⟨h1, h2, _⟩ := hB
        rw [← h1, ← h2]
        intro r tmin tmax hbox f hf
        cases f with
        | zero => exact absurd hf (Nat.not_lt_zero _)
        | succ f2 =>
          refine leafNode_hit_char [o1, o2] nodes0 o2 o1 ?_ f2 r tmin tmax
            (hbox o2 (by simp)) (hbox o1 (by simp))
          intro o3
          rw [List.mem_cons, List.mem_singleton]
          exact Or.comm
    | o1 :: o2 :: o3 :: rest, hlen3, SI =>
      rw [new_helper] at hB
      set sorted : List Object := (o1 :: o2 :: o3 :: rest).mergeSort
        (fun a b => decide (axKey (axes ctr) a ≤ axKey (axes ctr) b)) with hsorted
      set mid : ℕ := sorted.length / 2 with hmid
      have hslen : sorted.length = rest.length + 3 := by
        rw [hsorted, List.length_mergeSort]
        simp
      have hmid1 : 1 ≤ mid := by omega
      have hmidlt : mid < sorted.length := by omega
      have hlenL : (sorted.take mid).length = mid := by
        rw [List.length_take]
        omega
      have hlenR : (sorted.drop mid).length = sorted.length - mid :=
        List.length_drop mid sorted
      have hl3 : rest.length + 3 ≤ n + 1 := by simpa using hlen3
      cases hL : new_helper axes (sorted.take mid) (ctr + 1) nodes0 with
      | none => rw [hL] at hB; cases hB
      | some res1 =>
        obtain ⟨nodes1, li, c1⟩ := res1
        rw [hL] at hB
        dsimp only [] at hB
        cases hR : new_helper axes (sorted.drop mid) c1 nodes1 with
        | none => rw [hR] at hB; cases hB
        | some res2 =>
          obtain ⟨nodes2, ri, c2⟩ := res2
          rw [hR] at hB
          dsimp only [] at hB
          simp only [Option.some.injEq, Prod.mk.injEq] at hB
          obtain ⟨hnodes, hk, _⟩ := hB
          have hperm : ∀ o : Object,
              (o ∈ sorted.take mid ∨ o ∈ sorted.drop mid) ↔
                o ∈ o1 :: o2 :: o3 :: rest := by
            intro o
            rw [← List.mem_append, List.take_append_drop]
            rw [hsorted]
            exact (List.mergeSort_perm (o1 :: o2 :: o3 :: rest) _).mem_iff
          have hm : ∀ o : Object, o ∈ o1 :: o2 :: o3 :: rest ↔
              (o ∈ sorted.take mid ∨ o ∈ sorted.drop mid) :=
            fun o => (hperm o).symm
          have SL := static_master n (sorted.take mid) (by rw [hlenL]; omega)
            axes (ctr + 1) nodes0 nodes1 li c1 hL hw0 hidx0
          have SR := static_master n (sorted.drop mid) (by rw [hlenR]; omega)
            axes c1 nodes1 nodes2 ri c2 hR SL.wf SL.idx
          have ihL := ih (sorted.take mid) (by rw [hlenL]; omega) axes (ctr + 1)
            nodes0 nodes1 li c1 hL hw0 hidx0
          have ihR := ih (sorted.drop mid) (by rw [hlenR]; omega) axes c1
            nodes1 nodes2 ri c2 hR SL.wf SL.idx
          have hk1 : nodes1.length ≤ nodes2.length := by
            have := SR.lb
            have := SR.ub
            omega
          have hli2 : li < nodes2.length := lt_of_lt_of_le SL.ub hk1
          have hlneri : li ≠ ri := by
            have := SR.lb
            have := SL.ub
            omega
          set K : ℕ := nodes2.length with hK
          set node : BvhNode := ⟨none, K, .index li, .index ri,
            unionBoxes (childBox nodes2 (.index li))
              (childBox nodes2 (.index ri))⟩ with hnd
          set sp2 : List BvhNode := setParent (setParent nodes2 li K) ri K
            with hsp2
          have hsplen : sp2.length = K := by
            rw [hsp2, setParent_length, setParent_length]
          have hnlen : (sp2 ++ [node]).length = K + 1 := by
            simp [hsplen]
          have hgetk : (sp2 ++ [node]).getD K junkNode = node := by
            rw [← hsplen]
            exact append_getD_last sp2 node
          have hpresq : ∀ j, j < K →
              presEq (nodes2.getD j junkNode)
                ((sp2 ++ [node]).getD j junkNode) := by
            intro j hj
            rw [append_getD_lt _ _ j (by omega)]
            exact presEq_trans (setParent_presEq nodes2 li K j)
              (setParent_presEq (setParent nodes2 li K) ri K j)
          rw [← hnodes, ← hk]
          rw [← hnodes, ← hk] at SI
          intro r tmin tmax hbox f hf
          have hboxL : ∀ o ∈ sorted.take mid, BoxOk o r tmin tmax :=
            fun o ho => hbox o ((hperm o).mp (Or.inl ho))
          have hboxR : ∀ o ∈ sorted.drop mid, BoxOk o r tmin tmax :=
            fun o ho => hbox o ((hperm o).mp (Or.inr ho))
          cases f with
          | zero => exact absurd hf (Nat.not_lt_zero _)
          | succ f2 =>
            have hKf : K ≤ f2 := by omega
            have hriK : ri < K := SR.ub
            have hliK : li < K := hli2
            have hlif : li < f2 := by omega
            have hrif : ri < f2 := by omega
            have hfrL : nodeHit (sp2 ++ [node]) f2 li r tmin tmax =
                nodeHit nodes1 f2 li r tmin tmax := by
              have e1 : nodeHit (sp2 ++ [node]) f2 li r tmin tmax =
                  nodeHit nodes2 f2 li r tmin tmax :=
                nodeHit_frame nodes2 (sp2 ++ [node]) SR.wf f2 li r tmin tmax
                  (fun j hj => hpresq j (by omega))
              have e2 : nodeHit nodes2 f2 li r tmin tmax =
                  nodeHit nodes1 f2 li r tmin tmax :=
                nodeHit_frame nodes1 nodes2 SL.wf f2 li r tmin tmax
                  (fun j hj => by
                    rw [SR.pres j (by have := SL.ub; omega)]
                    exact presEq_refl _)
              rw [e1, e2]
            have hfrR : nodeHit (sp2 ++ [node]) f2 ri r tmin tmax =
                nodeHit nodes2 f2 ri r tmin tmax :=
              nodeHit_frame nodes2 (sp2 ++ [node]) SR.wf f2 ri r tmin tmax
                (fun j hj => hpresq j (by omega))
            have HL := ihL r tmin tmax hboxL f2 hlif
            have HR := ihR r tmin tmax hboxR f2 hrif
            by_cases hbx : Aabb.hit (unionBoxes (childBox nodes2 (.index li))
                (childBox nodes2 (.index ri))) r (.fin tmin) (.fin tmax) = true
            · cases cL : nodeHit nodes1 f2 li r tmin tmax with
              | some l =>
                cases cR : nodeHit nodes2 f2 ri r tmin tmax with
                | some rr =>
                  have hres : nodeHit (sp2 ++ [node]) (f2 + 1) K r tmin tmax =
                      if l.1.t < rr.1.t then some l else some rr := by
                    simp only [nodeHit]
                    rw [hgetk, hnd]
                    dsimp only []
                    rw [if_neg (not_not_intro hbx), hfrL, hfrR, cL, cR]
                  have hN := nearest_split_both_full hm (HL.1 l cL) (HR.1 rr cR)
                  constructor
                  · intro p hp
                    rw [hres] at hp
                    by_cases hc : l.1.t < rr.1.t
                    · rw [if_pos hc] at hp hN
                      injection hp with hp
                      rw [← hp]
                      exact hN
                    · rw [if_neg hc] at hp hN
                      injection hp with hp
                      rw [← hp]
                      exact hN
                  · intro hcon
                    rw [hres] at hcon
                    by_cases hc : l.1.t < rr.1.t
                    · rw [if_pos hc] at hcon
                      cases hcon
                    · rw [if_neg hc] at hcon
                      cases hcon
                | none =>
                  have hres : nodeHit (sp2 ++ [node]) (f2 + 1) K r tmin tmax =
                      some l := by
                    simp only [nodeHit]
                    rw [hgetk, hnd]
                    dsimp only []
                    rw [if_neg (not_not_intro hbx), hfrL, hfrR, cL, cR]
                  have hle : l.1.t ≤ tmax := (HL.1 l cL).2.2.1
                  have hN := nearest_split_left hm (HL.1 l cL)
                    (HitsNone.mono (HR.2 cR) hle)
                  constructor
                  · intro p hp
                    rw [hres] at hp
                    injection hp with hp
                    rw [← hp]
                    exact hN
                  · intro hcon
                    rw [hres] at hcon
                    cases hcon
              | none =>
                cases cR : nodeHit nodes2 f2 ri r tmin tmax with
                | some rr =>
                  have hres : nodeHit (sp2 ++ [node]) (f2 + 1) K r tmin tmax =
                      some rr := by
                    simp only [nodeHit]
                    rw [hgetk, hnd]
                    dsimp only []
                    rw [if_neg (not_not_intro hbx), hfrL, hfrR, cL, cR]
                  have hN := nearest_split_right hm (HL.2 cL) (HR.1 rr cR)
                  constructor
                  · intro p hp
                    rw [hres] at hp
                    injection hp with hp
                    rw [← hp]
                    exact hN
                  · intro hcon
                    rw [hres] at hcon
                    cases hcon
                | none =>
                  have hres : nodeHit (sp2 ++ [node]) (f2 + 1) K r tmin tmax =
                      none := by
                    simp only [nodeHit]
                    rw [hgetk, hnd]
                    dsimp only []
                    rw [if_neg (not_not_intro hbx), hfrL, hfrR, cL, cR]
                  constructor
                  · intro p hp
                    rw [hres] at hp
                    cases hp
                  · intro _
                    exact hitsNone_split hm (HL.2 cL) (HR.2 cR)
            · have hres : nodeHit (sp2 ++ [node]) (f2 + 1) K r tmin tmax =
                  none := by
                simp only [nodeHit]
                rw [hgetk, hnd]
                dsimp only []
                rw [if_pos hbx]
              constructor
              · intro p hp
                rw [hres] at hp
                cases hp
              · intro _
                refine boxFail_hitsNone SI hbox ?_
                rw [hgetk, hnd]
                exact hbx

/-- C1: for every scene list of bounded hittables (sound bounding boxes for
the query) and every ray, the hit returned by a BVH built over the list and
queried without a predictor has the same `t` value as the nearest hit over
`[tmin, tmax]` found by the brute-force scan of the original
`HittableList`. -/
theorem c1_bvh_equiv (objs : List Object) (axes : ℕ → Fin 3)
    (nodes : List BvhNode) (root : ℕ) (r : RayQ) (tmin tmax : ℚ)
    (hbox : ∀ o ∈ objs, BoxOk o r tmin tmax)
    (hb : Bvh.build objs axes = some (nodes, root)) :
    (bvhHit nodes root r tmin tmax).map HitRec.t =
      (HittableList.hit objs r tmin tmax).map HitRec.t := by
  unfold Bvh.build at hb
  cases hB : new_helper axes objs 0 [] with
  | none => rw [hB] at hb; cases hb
  | some res =>
    obtain ⟨nodes2, k2, c2⟩ := res
    rw [hB] at hb
    simp only [Option.some.injEq, Prod.mk.injEq] at hb
    obtain ⟨h1, h2⟩ := hb
    subst h1
    subst h2
    have hch := hit_master objs.length objs (le_refl _) axes 0 [] nodes2 k2 c2
      hB wfDec_nil idxOk_nil r tmin tmax hbox (k2 + 1) (Nat.lt_succ_self _)
    have hlch := listHit_char objs r tmin tmax
    have he : (nodeHit nodes2 (k2 + 1) k2 r tmin tmax).map
          (fun p => p.1.t) =
        (HittableList.hit objs r tmin tmax).map HitRec.t := by
      have hxs : ∀ t, (nodeHit nodes2 (k2 + 1) k2 r tmin tmax).map
          (fun p => p.1.t) = some t → NearestT objs r tmin tmax t := by
        intro t ht
        rw [Option.map_eq_some'] at ht
        obtain ⟨p, hp, hpt⟩ := ht
        rw [← hpt]
        exact hch.1 p hp
      have hxn : (nodeHit nodes2 (k2 + 1) k2 r tmin tmax).map
          (fun p => p.1.t) = none → HitsNone objs r tmin tmax := by
        intro ht
        rw [Option.map_eq_none'] at ht
        exact hch.2 ht
      have hys : ∀ t, (HittableList.hit objs r tmin tmax).map HitRec.t =
          some t → NearestT objs r tmin tmax t := by
        intro t ht
        rw [Option.map_eq_some'] at ht
        obtain ⟨p, hp, hpt⟩ := ht
        rw [← hpt]
        exact hlch.1 p hp
      have hyn : (HittableList.hit objs r tmin tmax).map HitRec.t = none →
          HitsNone objs r tmin tmax := by
        intro ht
        rw [Option.map_eq_none'] at ht
        exact hlch.2 ht
      exact opt_t_eq hxs hxn hys hyn
    unfold bvhHit
    rw [Option.map_map]
    exact he

/-! ### Concrete witness scene -/

/-- A bounded hittable sitting in `x ∈ [1, 3]`, hit at `t = 2` by the ray
from the origin along `+x`. -/
def oA : Object := ⟨1, fun rr => if rr.direction.x = 1 then [2] else [],
  ⟨⟨1, -1, -1⟩, ⟨3, 1, 1⟩⟩⟩

/-- A bounded hittable sitting in `x ∈ [4, 6]`, hit at `t = 5` by the ray
from the origin along `+x`. -/
def oB : Object := ⟨2, fun rr => if rr.direction.x = 1 then [5] else [],
  ⟨⟨4, -1, -1⟩, ⟨6, 1, 1⟩⟩⟩

def wRay : RayQ := ⟨⟨0, 0, 0⟩, ⟨1, 0, 0⟩⟩

def wAxes : ℕ → Fin 3 := fun _ => 0

def wNodes : List BvhNode :=
  [⟨none, 0, .hittable oA, .hittable oB, unionBoxes oA.box oB.box⟩]

theorem wBuild : Bvh.build [oA, oB] wAxes = some (wNodes, 0) := by
  rw [Bvh.build, new_helper]
  rw [if_pos (by norm_num [axKey, oA, oB, wAxes])]
  simp [wNodes]

theorem wBoxOk : ∀ o ∈ [oA, oB], BoxOk o wRay 0 100 := by
  intro o ho
  rcases List.mem_cons.mp ho with rfl | ho
  · intro s hs h1 h2
    norm_num [oA, wRay, Aabb.hit, slabAxis, slabP, slabCheck, slabInv, um, uM,
      xlt, xmul]
  · rw [List.mem_singleton.mp ho]
    intro s hs h1 h2
    norm_num [oB, wRay, Aabb.hit, slabAxis, slabP, slabCheck, slabInv, um, uM,
      xlt, xmul]

/-- Witness for C1: on the two-object scene the BVH query and the
brute-force scan agree (both report the hit at `t = 2`). -/
theorem c1_bvh_equiv_witness :
    (∀ o ∈ [oA, oB], BoxOk o wRay 0 100) ∧
    Bvh.build [oA, oB] wAxes = some (wNodes, 0) ∧
    (bvhHit wNodes 0 wRay 0 100).map HitRec.t =
      (HittableList.hit [oA, oB] wRay 0 100).map HitRec.t ∧
    (HittableList.hit [oA, oB] wRay 0 100).map HitRec.t = some 2 :=
  ⟨wBoxOk, wBuild,
    c1_bvh_equiv [oA, oB] wAxes wNodes 0 wRay 0 100 wBoxOk wBuild,
    by norm_num [HittableList.hit, listStep, Object.hit, nearestIn,
      List.filter, oA, oB, wRay]⟩

/-- Witness for C7: the built node's box contains the union of its
children's boxes. -/
theorem c7_bvh_subsumption_witness :
    Bvh.build [oA, oB] wAxes = some (wNodes, 0) ∧
    ∀ j, j < wNodes.length →
      containsB (wNodes.getD j junkNode).bounding_box
        (unionBoxes (childBox wNodes (wNodes.getD j junkNode).left)
          (childBox wNodes (wNodes.getD j junkNode).right)) :=
  ⟨wBuild, c7_bvh_subsumption [oA, oB] wAxes wNodes 0 wBuild⟩

/-! ### Instrumented traversal for the interval-tightening claim -/

/-- One child-intersection call made during `BvhNode::hit`: which side, the
child's kind, the query interval passed to the child, the left hit parameter
known at the time of the call, and the interval the calling node itself was
queried with. -/
structure CallRec where
  side : Bool
  interior : Bool
  qmin : ℚ
  qmax : ℚ
  leftT : Option ℚ
  nodeTmin : ℚ
  nodeTmax : ℚ
deriving DecidableEq, Repr

/-- `BvhNode::hit` instrumented with the trace of child-intersection calls
it makes; `nodeHitT_fst` proves the hit result is that of `nodeHit`. -/
def nodeHitT (nodes : List BvhNode) : ℕ → ℕ → RayQ → ℚ → ℚ →
    Option (HitRec × ℕ) × List CallRec
  | 0, _, _, _, _ => (none, [])
  | fuel + 1, k, r, tmin, tmax =>
    let n := nodes.getD k junkNode
    if ¬ (Aabb.hit n.bounding_box r (.fin tmin) (.fin tmax)) = true then
      (none, [])
    else
      let L : Option (HitRec × ℕ) × Bool × List CallRec :=
        match n.left with
        | .index i =>
          let p := nodeHitT nodes fuel i r tmin tmax
          (p.1, true, p.2)
        | .hittable o => (leafHit o n.idx r tmin tmax, false, [])
      let tMaxForRight := match L.1 with
        | some hl => hl.1.t
        | none => tmax
      let R : Option (HitRec × ℕ) × Bool × ℚ × List CallRec :=
        match n.right with
        | .index i =>
          let p := nodeHitT nodes fuel i r tmin tmax
          (p.1, true, tmax, p.2)
        | .hittable o =>
          (leafHit o n.idx r tmin tMaxForRight, false, tMaxForRight, [])
      let res := match L.1, R.1 with
        | none, none => none
        | some l, none => some l
        | none, some rr => some rr
        | some l, some rr => if l.1.t < rr.1.t then some l else some rr
      (res,
        ⟨false, L.2.1, tmin, tmax, none, tmin, tmax⟩ ::
        ⟨true, R.2.1, tmin, R.2.2.1, L.1.map (fun hl => hl.1.t), tmin, tmax⟩ ::
        (L.2.2 ++ R.2.2.2))

/-- The instrumentation does not change the traversal result. -/
theorem nodeHitT_fst (nodes : List BvhNode) :
    ∀ (fuel k : ℕ) (r : RayQ) (tmin tmax : ℚ),
      (nodeHitT nodes fuel k r tmin tmax).1 =
        nodeHit nodes fuel k r tmin tmax := by
  intro fuel
  induction fuel with
  | zero => intro k r tmin tmax; rfl
  | succ fuel ih =>
    intro k r tmin tmax
    simp only [nodeHitT, nodeHit]
    by_cases hbox : Aabb.hit ((nodes.getD k junkNode).bounding_box) r
        (.fin tmin) (.fin tmax) = true
    · rw [if_neg (not_not_intro hbox), if_neg (not_not_intro hbox)]
      cases hL : (nodes.getD k junkNode).left with
      | index i =>
        cases hR : (nodes.getD k junkNode).right with
        | index i2 =>
          dsimp only []
          rw [ih i, ih i2]
        | hittable o =>
          dsimp only []
          rw [ih i]
      | hittable o =>
        cases hR : (nodes.getD k junkNode).right with
        | index i2 =>
          dsimp only []
          rw [ih i2]
        | hittable o2 => rfl
    · rw [if_pos hbox, if_pos hbox]

/-- C4 (amended): in every child-intersection call of `BvhNode::hit`, the
lower bound is always the node's own `t_min`; the left child and an
interior (`Child::Index`) right child are intersected over the node's
original `[t_min, t_max]`, and only a leaf (`Child::Hittable`) right child
is intersected over the tightened `[t_min, t_max_right]` with
`t_max_right` the left hit's `t` when present and `t_max` otherwise. -/
theorem c4_right_child_interval (nodes : List BvhNode) :
    ∀ (fuel k : ℕ) (r : RayQ) (tmin tmax : ℚ),
      ∀ c ∈ (nodeHitT nodes fuel k r tmin tmax).2,
        (c.side = false → c.qmin = c.nodeTmin ∧ c.qmax = c.nodeTmax) ∧
        (c.side = true → c.interior = false →
          c.qmin = c.nodeTmin ∧
          c.qmax = (match c.leftT with
            | some t => t
            | none => c.nodeTmax)) ∧
        (c.side = true → c.interior = true →
          c.qmin = c.nodeTmin ∧ c.qmax = c.nodeTmax) := by
  intro fuel
  induction fuel with
  | zero =>
    intro k r tmin tmax c hc
    simp only [nodeHitT, List.not_mem_nil] at hc
  | succ fuel ih =>
    intro k r tmin tmax c hc
    by_cases hbox : Aabb.hit ((nodes.getD k junkNode).bounding_box) r
        (.fin tmin) (.fin tmax) = true
    · cases hL : (nodes.getD k junkNode).left with
      | index i =>
        cases hR : (nodes.getD k junkNode).right with
        | index i2 =>
          have htr : (nodeHitT nodes (fuel + 1) k r tmin tmax).2 =
              ⟨false, true, tmin, tmax, none, tmin, tmax⟩ ::
              ⟨true, true, tmin, tmax,
                (nodeHitT nodes fuel i r tmin tmax).1.map (fun hl => hl.1.t),
                tmin, tmax⟩ ::
              ((nodeHitT nodes fuel i r tmin tmax).2 ++
                (nodeHitT nodes fuel i2 r tmin tmax).2) := by
            simp only [nodeHitT]
            rw [if_neg (not_not_intro hbox), hL, hR]
          rw [htr] at hc
          rcases List.mem_cons.mp hc with rfl | hc
          · exact ⟨fun _ => ⟨rfl, rfl⟩, fun h => by simp at h,
              fun h => by simp at h⟩
          rcases List.mem_cons.mp hc with rfl | hc
          · exact ⟨fun h => by simp at h, fun _ h => by simp at h,
              fun _ _ => ⟨rfl, rfl⟩⟩
          rcases List.mem_append.mp hc with hc | hc
          · exact ih i r tmin tmax c hc
          · exact ih i2 r tmin tmax c hc
        | hittable o =>
          have htr : (nodeHitT nodes (fuel + 1) k r tmin tmax).2 =
              ⟨false, true, tmin, tmax, none, tmin, tmax⟩ ::
              ⟨true, false, tmin,
                (match (nodeHitT nodes fuel i r tmin tmax).1 with
                  | some hl => hl.1.t
                  | none => tmax),
                (nodeHitT nodes fuel i r tmin tmax).1.map (fun hl => hl.1.t),
                tmin, tmax⟩ ::
              ((nodeHitT nodes fuel i r tmin tmax).2 ++ []) := by
            simp only [nodeHitT]
            rw [if_neg (not_not_intro hbox), hL, hR]
          rw [htr] at hc
          rcases List.mem_cons.mp hc with rfl | hc
          · exact ⟨fun _ => ⟨rfl, rfl⟩, fun h => by simp at h,
              fun h => by simp at h⟩
          rcases List.mem_cons.mp hc with rfl | hc
          · refine ⟨fun h => by simp at h, fun _ _ => ⟨rfl, ?_⟩,
              fun _ h => by simp at h⟩
            cases hx : (nodeHitT nodes fuel i r tmin tmax).1 with
            | some hl => rfl
            | none => rfl
          rcases List.mem_append.mp hc with hc | hc
          · exact ih i r tmin tmax c hc
          · simp at hc
      | hittable o =>
        cases hR : (nodes.getD k junkNode).right with
        | index i2 =>
          have htr : (nodeHitT nodes (fuel + 1) k r tmin tmax).2 =
              ⟨false, false, tmin, tmax, none, tmin, tmax⟩ ::
              ⟨true, true, tmin, tmax,
                (leafHit o (nodes.getD k junkNode).idx r tmin tmax).map
                  (fun hl => hl.1.t), tmin, tmax⟩ ::
              ([] ++ (nodeHitT nodes fuel i2 r tmin tmax).2) := by
            simp only [nodeHitT]
            rw [if_neg (not_not_intro hbox), hL, hR]
          rw [htr] at hc
          rcases List.mem_cons.mp hc with rfl | hc
          · exact ⟨fun _ => ⟨rfl, rfl⟩, fun h => by simp at h,
              fun h => by simp at h⟩
          rcases List.mem_cons.mp hc with rfl | hc
          · exact ⟨fun h => by simp at h, fun _ h => by simp at h,
              fun _ _ => ⟨rfl, rfl⟩⟩
          rcases List.mem_append.mp hc with hc | hc
          · simp at hc
          · exact ih i2 r tmin tmax c hc
        | hittable o2 =>
          have htr : (nodeHitT nodes (fuel + 1) k r tmin tmax).2 =
              ⟨false, false, tmin, tmax, none, tmin, tmax⟩ ::
              ⟨true, false, tmin,
                (match leafHit o (nodes.getD k junkNode).idx r tmin tmax with
                  | some hl => hl.1.t
                  | none => tmax),
                (leafHit o (nodes.getD k junkNode).idx r tmin tmax).map
                  (fun hl => hl.1.t), tmin, tmax⟩ ::
              ([] ++ []) := by
            simp only [nodeHitT]
            rw [if_neg (not_not_intro hbox), hL, hR]
          rw [htr] at hc
          rcases List.mem_cons.mp hc with rfl | hc
          · exact ⟨fun _ => ⟨rfl, rfl⟩, fun h => by simp at h,
              fun h => by simp at h⟩
          rcases List.mem_cons.mp hc with rfl | hc
          · refine ⟨fun h => by simp at h, fun _ _ => ⟨rfl, ?_⟩,
              fun _ h => by simp at h⟩
            cases hx : leafHit o (nodes.getD k junkNode).idx r tmin tmax with
            | some hl => rfl
            | none => rfl
          · simp at hc
    · have htr : (nodeHitT nodes (fuel + 1) k r tmin tmax).2 = [] := by
        simp only [nodeHitT]
        rw [if_pos hbox]
      rw [htr] at hc
      simp at hc

/-- A third bounded hittable in `x ∈ [7, 9]`, hit at `t = 8` by `wRay`. -/
def oC : Object := ⟨3, fun rr => if rr.direction.x = 1 then [8] else [],
  ⟨⟨7, -1, -1⟩, ⟨9, 1, 1⟩⟩⟩

def nA : BvhNode := ⟨some 2, 0, .hittable oA, .hittable oA,
  unionBoxes oA.box oA.box⟩

def nBC : BvhNode := ⟨some 2, 1, .hittable oB, .hittable oC,
  unionBoxes oB.box oC.box⟩

def nRoot : BvhNode := ⟨none, 2, .index 0, .index 1,
  unionBoxes (unionBoxes oA.box oA.box) (unionBoxes oB.box oC.box)⟩

/-- The node array the program builds over `[oA, oB, oC]` (`cBuild`). -/
def cNodes : List BvhNode := [nA, nBC, nRoot]

theorem hsortw : ([oA, oB, oC].mergeSort
    (fun a b => decide (axKey (wAxes 0) a ≤ axKey (wAxes 0) b))) =
    [oA, oB, oC] :=
  List.mergeSort_of_sorted (by norm_num [axKey, oA, oB, oC, wAxes])

theorem hnh1 : new_helper wAxes [oA] 1 [] =
    some ([⟨none, 0, .hittable oA, .hittable oA, unionBoxes oA.box oA.box⟩],
      0, 2) := by
  rw [new_helper]
  simp

theorem hnh2 : new_helper wAxes [oB, oC] 2
    [⟨none, 0, .hittable oA, .hittable oA, unionBoxes oA.box oA.box⟩] =
    some ([⟨none, 0, .hittable oA, .hittable oA, unionBoxes oA.box oA.box⟩,
      ⟨none, 1, .hittable oB, .hittable oC, unionBoxes oB.box oC.box⟩],
      1, 3) := by
  rw [new_helper]
  rw [if_pos (by norm_num [axKey, oB, oC, wAxes])]
  simp

theorem cBuild : Bvh.build [oA, oB, oC] wAxes = some (cNodes, 2) := by
  have hnh : new_helper wAxes [oA, oB, oC] 0 [] = some (cNodes, 2, 3) := by
    rw [new_helper]
    dsimp only []
    rw [hsortw]
    norm_num [hnh1, hnh2, setParent, List.set, List.getD, childBox,
      cNodes, nA, nBC, nRoot]
  rw [Bvh.build, hnh]

/-- The root's right-child call in the trace of `wRay` against `cNodes`: an
interior child, queried over `[0, 100]` although the left subtree has
already hit at `t = 2`. -/
def cRec : CallRec := ⟨true, true, 0, 100, some 2, 0, 100⟩

theorem hmemw : cRec ∈ (nodeHitT cNodes 3 2 wRay 0 100).2 := by
  norm_num [nodeHitT, leafHit, Object.hit, nearestIn, List.filter,
    cRec, cNodes, nA, nBC, nRoot, oA, oB, oC, wRay, unionBoxes, Aabb.hit,
    slabAxis, slabP, slabCheck, slabInv, um, uM, xlt, xmul, List.getD,
    min_def, max_def]

/-- C4 counterexample: in the BVH the program builds over three objects on
the x axis, traversing from the root with `[0, 100]` intersects the root's
interior right child over the untightened `[0, 100]` even though the left
child has already hit at `t = 2`; the claimed `t_max_right = 2` does not
hold for this interior right child. -/
theorem c4_right_child_interval_counterexample :
    Bvh.build [oA, oB, oC] wAxes = some (cNodes, 2) ∧
    ∃ c ∈ (nodeHitT cNodes 3 2 wRay 0 100).2,
      c.side = true ∧ c.leftT = some 2 ∧ c.qmax = 100 ∧ ¬ c.qmax = 2 :=
  ⟨cBuild, cRec, hmemw, rfl, rfl, rfl, by norm_num [cRec]⟩

/-- Witness instantiating `c4_right_child_interval` at the root's right
child call of the concrete trace. -/
theorem c4_right_child_interval_witness :
    cRec ∈ (nodeHitT cNodes 3 2 wRay 0 100).2 ∧
    (cRec.side = true → cRec.interior = true →
      cRec.qmin = cRec.nodeTmin ∧ cRec.qmax = cRec.nodeTmax) :=
  ⟨hmemw, (c4_right_child_interval cNodes 3 2 wRay 0 100 cRec hmemw).2.2⟩

/-! ### The predictor (`hrpp.rs`) and `Bvh::hit` with a predictor -/

/-- `Predictor` from `hrpp.rs`: the prediction table (an association list
with the lookup semantics of the `AHashMap<u64, usize>`) and the three
statistics counters. -/
structure Predictor where
  table : List (ℕ × ℕ)
  tp : ℕ
  fp : ℕ
  np : ℕ
deriving DecidableEq, Repr

/-- `prediction_table.get(&key)`. -/
def lookup (table : List (ℕ × ℕ)) (key : ℕ) : Option ℕ :=
  (table.find? (fun e => e.1 == key)).map Prod.snd

/-- `prediction_table.insert(key, prediction)`: replace the binding of
`key` if present, append otherwise. -/
def insertTable (table : List (ℕ × ℕ)) (key idx : ℕ) : List (ℕ × ℕ) :=
  match table with
  | [] => [(key, idx)]
  | e :: rest =>
    if e.1 = key then (key, idx) :: rest else e :: insertTable rest key idx

/-- `Bvh::go_up_level`: walk `levels` steps towards the root, stopping at a
node without a parent. Both call sites pass `0` levels, so the walk is the
identity there. -/
def go_up_level (nodes : List BvhNode) (start : ℕ) : ℕ → ℕ
  | 0 => start
  | levels + 1 =>
    match (nodes.getD start junkNode).parent with
    | some par => go_up_level nodes par levels
    | none => start

/-- `Bvh::hit` when a predictor is registered for this BVH, `bvh.rs` lines
100-211. The ray fingerprint is abstracted as `fpr` (its concrete bit-level
definition over `f32` is the subject of C3 and is irrelevant to the control
flow here); `get_predictions` (not present in `hrpp.rs`, which only defines
`get_prediction`) is spec-modelled as yielding at most one predicted index,
so the loop over predicted indices collapses to a single `BvhNode::hit`
call over `[t_min, closest_so_far = t_max]`. `Except.error ()` models the
panic of `assert!(self.nodes[leaf_node_idx.0].parent.is_some())` on the
no-prediction path (line 195); the false-positive fall-back path (lines
160-177) performs no such assertion. -/
def bvhHitPred (fpr : RayQ → ℕ) (nodes : List BvhNode) (root : ℕ)
    (pred : Predictor) (r : RayQ) (tmin tmax : ℚ) :
    Except Unit (Option HitRec × Predictor) :=
  let key := fpr r
  match lookup pred.table key with
  | some predictedIdx =>
    match nodeHit nodes (predictedIdx + 1) predictedIdx r tmin tmax with
    | some hl =>
      .ok (some hl.1, { pred with tp := pred.tp + 1 })
    | none =>
      let pred2 := { pred with fp := pred.fp + 1 }
      match nodeHit nodes (root + 1) root r tmin tmax with
      | some hl2 =>
        .ok (some hl2.1,
          { pred2 with
            table := insertTable pred2.table key (go_up_level nodes hl2.2 0) })
      | none => .ok (none, pred2)
  | none =>
    let pred2 := { pred with np := pred.np + 1 }
    match nodeHit nodes (root + 1) root r tmin tmax with
    | none => .ok (none, pred2)
    | some hl =>
      if (nodes.getD hl.2 junkNode).parent = none then .error ()
      else
        .ok (some hl.1,
          { pred2 with
            table := insertTable pred2.table key (go_up_level nodes hl.2 0) })

/-- C2: whenever a looked-up prediction exists but intersecting from the
predicted node over `[t_min, t_max]` yields no hit, the false-positive
counter is incremented and a full traversal is performed from the root over
the original `[t_min, t_max]`; if that fall-back returns a hit, a new
prediction for this ray's fingerprint is inserted into the table before the
hit is returned, and otherwise no hit is returned with the table
unchanged. -/
theorem c2_false_positive (fpr : RayQ → ℕ) (nodes : List BvhNode)
    (root : ℕ) (pred : Predictor) (r : RayQ) (tmin tmax : ℚ) (pidx : ℕ)
    (hlk : lookup pred.table (fpr r) = some pidx)
    (hmiss : nodeHit nodes (pidx + 1) pidx r tmin tmax = none) :
    (∀ hl, nodeHit nodes (root + 1) root r tmin tmax = some hl →
      bvhHitPred fpr nodes root pred r tmin tmax =
        .ok (some hl.1,
          { pred with
            fp := pred.fp + 1,
            table := insertTable pred.table (fpr r)
              (go_up_level nodes hl.2 0) })) ∧
    (nodeHit nodes (root + 1) root r tmin tmax = none →
      bvhHitPred fpr nodes root pred r tmin tmax =
        .ok (none, { pred with fp := pred.fp + 1 })) := by
  constructor
  · intro hl hfall
    simp only [bvhHitPred]
    rw [hlk]
    dsimp only []
    rw [hmiss]
    dsimp only []
    rw [hfall]
  · intro hfall
    simp only [bvhHitPred]
    rw [hlk]
    dsimp only []
    rw [hmiss]
    dsimp only []
    rw [hfall]

/-- A fingerprint oracle for the witnesses (constant key 7). -/
def wFpr : RayQ → ℕ := fun _ => 7

/-- A predictor whose table predicts node 0 (`nA`) for every ray. -/
def pred0 : Predictor := ⟨[(7, 0)], 0, 0, 0⟩

theorem hlkw : lookup pred0.table (wFpr wRay) = some 0 := rfl

theorem hmissw0 : nodeHit cNodes 1 0 wRay 3 100 = none := by
  norm_num [nodeHit, leafHit, Object.hit, nearestIn, List.filter,
    cNodes, nA, oA, wRay, unionBoxes, Aabb.hit, slabAxis, slabP, slabCheck,
    slabInv, um, uM, xlt, xmul, List.getD, min_def, max_def]

theorem hfallw : nodeHit cNodes 3 2 wRay 3 100 = some (⟨5, 2⟩, 1) := by
  norm_num [nodeHit, leafHit, Object.hit, nearestIn, List.filter,
    cNodes, nA, nBC, nRoot, oA, oB, oC, wRay, unionBoxes, Aabb.hit,
    slabAxis, slabP, slabCheck, slabInv, um, uM, xlt, xmul, List.getD,
    min_def, max_def]

/-- Witness for C2: querying `cNodes` over `[3, 100]` with a seeded
prediction for node 0 misses there (false positive), falls back to the
root, finds the hit at `t = 5` in leaf node 1, and inserts the new
prediction. -/
theorem c2_false_positive_witness :
    lookup pred0.table (wFpr wRay) = some 0 ∧
    nodeHit cNodes 1 0 wRay 3 100 = none ∧
    bvhHitPred wFpr cNodes 2 pred0 wRay 3 100 =
      .ok (some ⟨5, 2⟩,
        { pred0 with
          fp := pred0.fp + 1,
          table := insertTable pred0.table (wFpr wRay)
            (go_up_level cNodes 1 0) }) :=
  ⟨hlkw, hmissw0,
    (c2_false_positive wFpr cNodes 2 pred0 wRay 3 100 0 hlkw hmissw0).1
      (⟨5, 2⟩, 1) hfallw⟩

/-- The closer-hit combination returns one of its two arguments. -/
theorem combineHit_some {v : HitRec × ℕ} {x y : Option (HitRec × ℕ)}
    (h : (match x, y with
      | none, none => none
      | some l, none => some l
      | none, some rr => some rr
      | some l, some rr =>
        if l.1.t < rr.1.t then some l else some rr) = some v) :
    x = some v ∨ y = some v := by
  cases x with
  | none =>
    cases y with
    | none => cases h
    | some rr =>
      injection h with h
      exact Or.inr (by rw [h])
  | some l =>
    cases y with
    | none =>
      injection h with h
      exact Or.inl (by rw [h])
    | some rr =>
      dsimp only [] at h
      by_cases hc : l.1.t < rr.1.t
      · rw [if_pos hc] at h
        injection h with h
        exact Or.inl (by rw [h])
      · rw [if_neg hc] at h
        injection h with h
        exact Or.inr (by rw [h])

theorem leafHit_snd {o : Object} {selfIdx : ℕ} {r : RayQ} {tmin tmax : ℚ}
    {v : HitRec × ℕ} (h : leafHit o selfIdx r tmin tmax = some v) :
    v.2 = selfIdx := by
  unfold leafHit at h
  rw [Option.map_eq_some'] at h
  obtain ⟨a, _, hv⟩ := h
  rw [← hv]

/-- Any hit reported by `BvhNode::hit` carries the `idx` of a node (at index
at most the queried one) that stores a `Child::Hittable` leaf. -/
theorem nodeHit_leaf (nodes : List BvhNode) (hw : wfDec nodes) :
    ∀ (fuel k : ℕ) (r : RayQ) (tmin tmax : ℚ) (hl : HitRec × ℕ),
      nodeHit nodes fuel k r tmin tmax = some hl →
      ∃ j, j ≤ k ∧ hl.2 = (nodes.getD j junkNode).idx ∧
        ((∃ o, (nodes.getD j junkNode).left = .hittable o) ∨
         (∃ o, (nodes.getD j junkNode).right = .hittable o)) := by
  intro fuel
  induction fuel with
  | zero =>
    intro k r tmin tmax hl h
    cases h
  | succ fuel ih =>
    intro k r tmin tmax hl h
    by_cases hbox : Aabb.hit ((nodes.getD k junkNode).bounding_box) r
        (.fin tmin) (.fin tmax) = true
    · cases hL : (nodes.getD k junkNode).left with
      | index i =>
        have hik : i < k := hw k i (Or.inl hL)
        cases hR : (nodes.getD k junkNode).right with
        | index i2 =>
          have hik2 : i2 < k := hw k i2 (Or.inr hR)
          have hred : nodeHit nodes (fuel + 1) k r tmin tmax =
              match nodeHit nodes fuel i r tmin tmax,
                nodeHit nodes fuel i2 r tmin tmax with
              | none, none => none
              | some l, none => some l
              | none, some rr => some rr
              | some l, some rr =>
                if l.1.t < rr.1.t then some l else some rr := by
            simp only [nodeHit]
            rw [if_neg (not_not_intro hbox), hL, hR]
          rw [hred] at h
          rcases combineHit_some h with hc | hc
          · obtain ⟨j, hj1, hj2, hj3⟩ := ih i r tmin tmax hl hc
            exact ⟨j, by omega, hj2, hj3⟩
          · obtain ⟨j, hj1, hj2, hj3⟩ := ih i2 r tmin tmax hl hc
            exact ⟨j, by omega, hj2, hj3⟩
        | hittable o =>
          have hred : nodeHit nodes (fuel + 1) k r tmin tmax =
              match nodeHit nodes fuel i r tmin tmax,
                leafHit o (nodes.getD k junkNode).idx r tmin
                  (match nodeHit nodes fuel i r tmin tmax with
                    | some hlv => hlv.1.t
                    | none => tmax) with
              | none, none => none
              | some l, none => some l
              | none, some rr => some rr
              | some l, some rr =>
                if l.1.t < rr.1.t then some l else some rr := by
            simp only [nodeHit]
            rw [if_neg (not_not_intro hbox), hL, hR]
          rw [hred] at h
          rcases combineHit_some h with hc | hc
          · obtain ⟨j, hj1, hj2, hj3⟩ := ih i r tmin tmax hl hc
            exact ⟨j, by omega, hj2, hj3⟩
          · exact ⟨k, le_refl k, leafHit_snd hc, Or.inr ⟨o, hR⟩⟩
      | hittable o =>
        cases hR : (nodes.getD k junkNode).right with
        | index i2 =>
          have hik2 : i2 < k := hw k i2 (Or.inr hR)
          have hred : nodeHit nodes (fuel + 1) k r tmin tmax =
              match leafHit o (nodes.getD k junkNode).idx r tmin tmax,
                nodeHit nodes fuel i2 r tmin tmax with
              | none, none => none
              | some l, none => some l
              | none, some rr => some rr
              | some l, some rr =>
                if l.1.t < rr.1.t then some l else some rr := by
            simp only [nodeHit]
            rw [if_neg (not_not_intro hbox), hL, hR]
          rw [hred] at h
          rcases combineHit_some h with hc | hc
          · exact ⟨k, le_refl k, leafHit_snd hc, Or.inl ⟨o, hL⟩⟩
          · obtain ⟨j, hj1, hj2, hj3⟩ := ih i2 r tmin tmax hl hc
            exact ⟨j, by omega, hj2, hj3⟩
        | hittable o2 =>
          have hred : nodeHit nodes (fuel + 1) k r tmin tmax =
              match leafHit o (nodes.getD k junkNode).idx r tmin tmax,
                leafHit o2 (nodes.getD k junkNode).idx r tmin
                  (match leafHit o (nodes.getD k junkNode).idx r tmin tmax with
                    | some hlv => hlv.1.t
                    | none => tmax) with
              | none, none => none
              | some l, none => some l
              | none, some rr => some rr
              | some l, some rr =>
                if l.1.t < rr.1.t then some l else some rr := by
            simp only [nodeHit]
            rw [if_neg (not_not_intro hbox), hL, hR]
          rw [hred] at h
          rcases combineHit_some h with hc | hc
          · exact ⟨k, le_refl k, leafHit_snd hc, Or.inl ⟨o, hL⟩⟩
          · exact ⟨k, le_refl k, leafHit_snd hc, Or.inr ⟨o2, hR⟩⟩
    · have hred : nodeHit nodes (fuel + 1) k r tmin tmax = none := by
        simp only [nodeHit]
        rw [if_pos hbox]
      rw [hred] at h
      cases h

/-- C10: with a registered predictor, the assertion
`assert!(self.nodes[leaf_node_idx.0].parent.is_some())` on the
no-prediction path (modelled as `Except.error ()`) holds for every ray when
the BVH was built from at least 3 objects; when it was built from 1 or 2
objects, the root node itself stores the hittables as children and has
`parent = None`, and every ray whose fingerprint misses the table and that
hits geometry makes `Bvh::hit` panic. -/
theorem c10_assert_parent (objs : List Object) (axes : ℕ → Fin 3)
    (nodes : List BvhNode) (root : ℕ)
    (hb : Bvh.build objs axes = some (nodes, root)) :
    (3 ≤ objs.length →
      ∀ (fpr : RayQ → ℕ) (pred : Predictor) (r : RayQ) (tmin tmax : ℚ),
        bvhHitPred fpr nodes root pred r tmin tmax ≠ .error ()) ∧
    (objs.length ≤ 2 →
      (nodes.getD root junkNode).parent = none ∧
      ∀ (fpr : RayQ → ℕ) (pred : Predictor) (r : RayQ) (tmin tmax : ℚ),
        lookup pred.table (fpr r) = none →
        (∃ hl, nodeHit nodes (root + 1) root r tmin tmax = some hl) →
        bvhHitPred fpr nodes root pred r tmin tmax = .error ()) := by
  have SI := build_staticInv hb
  constructor
  · intro h3 fpr pred r tmin tmax
    simp only [bvhHitPred]
    cases hlk : lookup pred.table (fpr r) with
    | some pidx =>
      dsimp only []
      cases hph : nodeHit nodes (pidx + 1) pidx r tmin tmax with
      | some hl =>
        dsimp only []
        intro hcon
        cases hcon
      | none =>
        dsimp only []
        cases hfb : nodeHit nodes (root + 1) root r tmin tmax with
        | some hl2 =>
          dsimp only []
          intro hcon
          cases hcon
        | none =>
          dsimp only []
          intro hcon
          cases hcon
    | none =>
      dsimp only []
      cases hfb : nodeHit nodes (root + 1) root r tmin tmax with
      | none =>
        dsimp only []
        intro hcon
        cases hcon
      | some hl =>
        dsimp only []
        obtain ⟨j, hj1, hj2, hj3⟩ :=
          nodeHit_leaf nodes SI.wf (root + 1) root r tmin tmax hl hfb
        have hjlen : j < nodes.length := lt_of_le_of_lt hj1 SI.ub
        have hidx : (nodes.getD j junkNode).idx = j := SI.idx j hjlen
        have hjne : j ≠ root := by
          intro hjr
          obtain ⟨i1, i2, hLr, hRr⟩ := SI.rootKindBig h3
          rcases hj3 with ⟨o, ho⟩ | ⟨o, ho⟩
          · rw [hjr, hLr] at ho
            cases ho
          · rw [hjr, hRr] at ho
            cases ho
        have hpar := SI.parSome j (Nat.zero_le j) hjlen hjne
        rw [hj2, hidx, if_neg hpar]
        intro hcon
        cases hcon
  · intro h2
    refine ⟨SI.rootPar, ?_⟩
    intro fpr pred r tmin tmax hlk hex
    obtain ⟨hl, hfb⟩ := hex
    obtain ⟨oL, oR, hL, hR⟩ := SI.rootKindSmall h2
    have hsnd : hl.2 = (nodes.getD root junkNode).idx := by
      by_cases hbox : Aabb.hit ((nodes.getD root junkNode).bounding_box) r
          (.fin tmin) (.fin tmax) = true
      · have hred : nodeHit nodes (root + 1) root r tmin tmax =
            match leafHit oL (nodes.getD root junkNode).idx r tmin tmax,
              leafHit oR (nodes.getD root junkNode).idx r tmin
                (match leafHit oL (nodes.getD root junkNode).idx r tmin tmax
                  with
                  | some hlv => hlv.1.t
                  | none => tmax) with
            | none, none => none
            | some l, none => some l
            | none, some rr => some rr
            | some l, some rr =>
              if l.1.t < rr.1.t then some l else some rr := by
          simp only [nodeHit]
          rw [if_neg (not_not_intro hbox), hL, hR]
        rw [hred] at hfb
        rcases combineHit_some hfb with hc | hc
        · exact leafHit_snd hc
        · exact leafHit_snd hc
      · have hnone : nodeHit nodes (root + 1) root r tmin tmax = none := by
          simp only [nodeHit]
          rw [if_pos hbox]
        rw [hnone] at hfb
        cases hfb
    have hidx : (nodes.getD root junkNode).idx = root := SI.idx root SI.ub
    simp only [bvhHitPred]
    rw [hlk]
    dsimp only []
    rw [hfb]
    dsimp only []
    rw [hsnd, hidx, if_pos SI.rootPar]

/-- The node array the program builds over the single object `[oA]`. -/
def bNodes : List BvhNode :=
  [⟨none, 0, .hittable oA, .hittable oA, unionBoxes oA.box oA.box⟩]

theorem bBuild : Bvh.build [oA] wAxes = some (bNodes, 0) := by
  rw [Bvh.build, new_helper]
  simp [bNodes]

theorem hhit1 : nodeHit bNodes 1 0 wRay 0 100 = some (⟨2, 1⟩, 0) := by
  norm_num [nodeHit, leafHit, Object.hit, nearestIn, List.filter,
    bNodes, oA, wRay, unionBoxes, Aabb.hit, slabAxis, slabP, slabCheck,
    slabInv, um, uM, xlt, xmul, List.getD, min_def, max_def]

/-- Witness for C10: on the three-object BVH `Bvh::hit` with a predictor
never panics for the concrete query, while on the one-object BVH the same
query with an empty prediction table panics. -/
theorem c10_assert_parent_witness :
    (3 ≤ ([oA, oB, oC] : List Object).length ∧
      bvhHitPred wFpr cNodes 2 ⟨[], 0, 0, 0⟩ wRay 0 100 ≠ .error ()) ∧
    (([oA] : List Object).length ≤ 2 ∧
      bvhHitPred wFpr bNodes 0 ⟨[], 0, 0, 0⟩ wRay 0 100 = .error ()) :=
  ⟨⟨by norm_num, (c10_assert_parent [oA, oB, oC] wAxes cNodes 2 cBuild).1
      (by norm_num) wFpr ⟨[], 0, 0, 0⟩ wRay 0 100⟩,
   ⟨by norm_num, ((c10_assert_parent [oA] wAxes bNodes 0 bBuild).2
      (by norm_num)).2 wFpr ⟨[], 0, 0, 0⟩ wRay 0 100 rfl ⟨(⟨2, 1⟩, 0), hhit1⟩⟩⟩

end RT
